import Mathlib

/-!
# Verification of rojo's indexed instance tree and sourcemap projection

Shallow embedding of `src/snapshot/tree.rs` (the `RojoTree` indexed instance
tree) and `src/sourcemap.rs` (the sourcemap projection) of the rojo
repository, together with proofs of the specification's testable properties.

Modelling conventions:
* `Ref` (rbx_dom_weak's arena handle) is a `Nat` (see `Ref`), allocated from a
  monotonically increasing counter and never reused, matching the arena
  semantics the spec assumes ("opaque, copyable, comparable, never reused").
* Strings stand in for instance names, class names (`Ustr`), filesystem
  paths (`PathBuf`) and user-specified stable identifiers (`RojoRef`).
* Hash maps (`HashMap`, `UstrMap`) are modelled as association lists with
  insert-or-replace semantics; the multimap `MultiMap` (whose source lives
  outside the provided files) is modelled from the spec.
* Rust panics (`unwrap`/`expect` on handles that are not live, destroying
  the root) are precondition violations per §7 of the spec; the embedding
  models those branches as no-ops and every theorem about them carries the
  liveness hypotheses under which the source cannot panic.
* The `WeakDom` value store is an external collaborator (rbx_dom_weak);
  it is modelled from the contract the spec assumes in §6: an arena tree
  with create-root, insert-child-under-parent, destroy-subtree and
  get-by-handle. Its tree shape is represented by the inductive `Inst`.
-/

abbrev Ref := Nat

/-- Property values (`rbx_dom_weak::types::Variant`). The tree stores these
opaquely; only `Variant::Bool` matters for the pivot-migration shim, all
other variants are collapsed into an opaque tag. -/
inductive Variant where
  | bool : Bool → Variant
  | other : Nat → Variant
deriving DecidableEq, Repr

abbrev Props := List (String × Variant)

/-- Insert-or-replace for a property bag (`UstrMap<Variant>` insertion). -/
def propsInsert (ps : Props) (k : String) (v : Variant) : Props :=
  if ps.any (fun kv => kv.1 = k) then
    ps.map (fun kv => if kv.1 = k then (k, v) else kv)
  else
    ps ++ [(k, v)]

/-- Insert every pair of `new` into `ps` (later pairs overwrite earlier
bindings), modelling `InstanceBuilder::with_properties`. -/
def propsInsertAll (ps new : Props) : Props :=
  new.foldl (fun acc kv => propsInsert acc kv.1 kv.2) ps

def propsLookup (ps : Props) (k : String) : Option Variant :=
  (ps.find? (fun kv => kv.1 = k)).map (·.2)

def propsContainsKey (ps : Props) (k : String) : Bool :=
  ps.any (fun kv => kv.1 = k)

/-- Rojo-specific per-instance metadata (`InstanceMetadata`), reduced to the
two fields the indexed tree maintains indices over: `relevant_paths` and
`specified_id`. -/
structure InstanceMetadata where
  relevant_paths : List String
  specified_id : Option String
deriving DecidableEq, Repr

/-- A snapshot of an instance subtree (`InstanceSnapshot`): class name,
name, property bag, metadata and child snapshots. -/
inductive InstanceSnapshot where
  | mk (class_name : String) (name : String) (properties : Props)
       (metadata : InstanceMetadata) (children : List InstanceSnapshot)

def InstanceSnapshot.class_name : InstanceSnapshot → String
  | .mk c _ _ _ _ => c

def InstanceSnapshot.name : InstanceSnapshot → String
  | .mk _ n _ _ _ => n

def InstanceSnapshot.properties : InstanceSnapshot → Props
  | .mk _ _ p _ _ => p

def InstanceSnapshot.metadata : InstanceSnapshot → InstanceMetadata
  | .mk _ _ _ m _ => m

def InstanceSnapshot.children : InstanceSnapshot → List InstanceSnapshot
  | .mk _ _ _ _ cs => cs

/-- Modelled from the spec: the `MultiMap` used by `RojoTree` for its Path
Index and Stable-Identifier Index lives in `src/multimap.rs`, which is not
among the provided source files.  Per §2 it is "a mapping from key to a set
of identity handles, supporting insert, remove-one, and lookup-all", and per
§9 it is "a generic ordered multimap (key → insertion-ordered set of
handles)".  It is modelled as an association list from keys to
insertion-ordered value lists; `remove` removes one occurrence and drops the
entry when it becomes empty. -/
structure MultiMap (K V : Type) where
  entries : List (K × List V)
deriving DecidableEq, Repr

namespace MultiMap

def empty {K V : Type} : MultiMap K V := ⟨[]⟩

def get {K V : Type} [DecidableEq K] (m : MultiMap K V) (k : K) : List V :=
  match m.entries.find? (fun e => e.1 = k) with
  | some e => e.2
  | none => []

def insert {K V : Type} [DecidableEq K] (m : MultiMap K V) (k : K) (v : V) :
    MultiMap K V :=
  if m.entries.any (fun e => e.1 = k) then
    ⟨m.entries.map (fun e => if e.1 = k then (e.1, e.2 ++ [v]) else e)⟩
  else
    ⟨m.entries ++ [(k, [v])]⟩

def remove {K V : Type} [DecidableEq K] [DecidableEq V] (m : MultiMap K V)
    (k : K) (v : V) : MultiMap K V :=
  ⟨m.entries.filterMap (fun e =>
    if e.1 = k then
      if (e.2.erase v).isEmpty then none else some (e.1, e.2.erase v)
    else some e)⟩

end MultiMap

/-- Association-list lookup for `HashMap<Nat, InstanceMetadata>`. -/
def alistLookup (m : List (Nat × InstanceMetadata)) (r : Nat) :
    Option InstanceMetadata :=
  (m.find? (fun e => e.1 = r)).map (·.2)

/-- Association-list insert-or-replace for `HashMap::insert`. -/
def alistInsert (m : List (Nat × InstanceMetadata)) (r : Nat)
    (md : InstanceMetadata) : List (Nat × InstanceMetadata) :=
  if m.any (fun e => e.1 = r) then
    m.map (fun e => if e.1 = r then (r, md) else e)
  else
    m ++ [(r, md)]

/-- Association-list key removal for `HashMap::remove`. -/
def alistErase (m : List (Nat × InstanceMetadata)) (r : Nat) :
    List (Nat × InstanceMetadata) :=
  m.filter (fun e => ¬ e.1 = r)

/-- A node of the value store's arena tree (`rbx_dom_weak::Instance`):
referent, name, class, property bag and child subtrees.  The parent link of
the source is left implicit (it is determined by the tree shape and is not
consulted by any of the modelled operations). -/
inductive Inst where
  | mk (referent : Nat) (name : String) (className : String)
       (properties : Props) (children : List Inst)

def Inst.referent : Inst → Nat
  | .mk r _ _ _ _ => r

def Inst.name : Inst → String
  | .mk _ n _ _ _ => n

def Inst.className : Inst → String
  | .mk _ _ c _ _ => c

def Inst.properties : Inst → Props
  | .mk _ _ _ p _ => p

def Inst.children : Inst → List Inst
  | .mk _ _ _ _ cs => cs

mutual

/-- All referents in a subtree, in depth-first preorder. -/
def Inst.refsList : Inst → List Nat
  | .mk r _ _ _ cs => r :: refsListF cs

def refsListF : List Inst → List Nat
  | [] => []
  | i :: rest => i.refsList ++ refsListF rest

end

mutual

/-- Subtree size (number of nodes). -/
def Inst.sz : Inst → Nat
  | .mk _ _ _ _ cs => 1 + szF cs

def szF : List Inst → Nat
  | [] => 0
  | i :: rest => i.sz + szF rest

end

mutual

/-- `WeakDom::get_by_ref`: the subtree rooted at the node with the given
referent, if one exists (first match in preorder). -/
def Inst.find : Inst → Nat → Option Inst
  | .mk r n c p cs, tgt =>
    if r = tgt then some (.mk r n c p cs) else findF cs tgt

def findF : List Inst → Nat → Option Inst
  | [], _ => none
  | i :: rest, tgt =>
    match i.find tgt with
    | some x => some x
    | none => findF rest tgt

end

mutual

/-- Attach `child` at the end of the child list of the node with referent
`parent` (`WeakDom::insert`'s structural effect); identity when no node has
that referent (the source panics there). -/
def Inst.insertChild : Inst → Nat → Inst → Inst
  | .mk r n c p cs, parent, child =>
    if r = parent then .mk r n c p (cs ++ [child])
    else .mk r n c p (insertChildF cs parent child)

def insertChildF : List Inst → Nat → Inst → List Inst
  | [], _, _ => []
  | i :: rest, parent, child =>
    i.insertChild parent child :: insertChildF rest parent child

end

mutual

/-- `WeakDom::destroy`'s structural effect: drop every child subtree whose
root has the given referent.  The node this is called on is itself never
dropped (destroying the root is a panic in the source, modelled as a
no-op). -/
def Inst.destroy : Inst → Nat → Inst
  | .mk r n c p cs, tgt => .mk r n c p (destroyF cs tgt)

def destroyF : List Inst → Nat → List Inst
  | [], _ => []
  | i :: rest, tgt =>
    if i.referent = tgt then destroyF rest tgt
    else i.destroy tgt :: destroyF rest tgt

end

/-- The value store (`rbx_dom_weak::WeakDom`), modelled from the contract
the spec assumes in §6: an arena-backed instance tree with a root and a
fresh-handle counter (handles are never reused). -/
structure WeakDom where
  root : Inst
  nextRef : Nat

/-- `WeakDom::insert`: allocate a fresh referent and attach a new childless
node under `parent_ref`. -/
def WeakDom.insert (d : WeakDom) (parent_ref : Nat) (className name : String)
    (props : Props) : Nat × WeakDom :=
  let r := d.nextRef
  (r, ⟨d.root.insertChild parent_ref (Inst.mk r name className props []), r + 1⟩)

/-- `WeakDom::destroy`: destroy the subtree rooted at `id`. -/
def WeakDom.destroy (d : WeakDom) (id : Nat) : WeakDom :=
  ⟨d.root.destroy id, d.nextRef⟩

/-- Worker for `bfsRefs`, structurally recursive on a fuel argument so that
the kernel can evaluate it; `bfsRefs` supplies the exact fuel (the total
number of queued nodes, which is precisely the number of dequeue steps). -/
def bfsRefsAux : Nat → List Inst → List Nat
  | 0, _ => []
  | _ + 1, [] => []
  | fuel + 1, i :: rest => i.referent :: bfsRefsAux fuel (rest ++ i.children)

/-- The breadth-first worklist traversal shared by `RojoTree::remove` and
`RojoDescendants::next`: pop the front of the queue, yield its referent, and
enqueue its children at the back (`bfsRefs_cons` below is its defining
dequeue step).  The source's queue holds referents and looks each up in the
(unchanging) dom; since referents are unique, carrying the subtrees directly
is equivalent. -/
def bfsRefs (q : List Inst) : List Nat :=
  bfsRefsAux (szF q) q

/-- An expanded variant of rbx_dom_weak's `WeakDom` that tracks additional
metadata per instance that's Rojo-specific (`RojoTree`). -/
structure RojoTree where
  inner : WeakDom
  metadata_map : List (Nat × InstanceMetadata)
  path_to_ids : MultiMap String Nat
  specified_id_to_refs : MultiMap String Nat

def RojoTree.get_root_id (t : RojoTree) : Nat := t.inner.root.referent

/-- `RojoTree::get_ids_at_path`. -/
def RojoTree.get_ids_at_path (t : RojoTree) (path : String) : List Nat :=
  t.path_to_ids.get path

/-- `RojoTree::get_metadata`. -/
def RojoTree.get_metadata (t : RojoTree) (id : Nat) : Option InstanceMetadata :=
  alistLookup t.metadata_map id

/-- `RojoTree::get_specified_id`: the backing `Ref` of the given `RojoRef`
when it maps to exactly one `Nat`, and `none` otherwise. -/
def RojoTree.get_specified_id (t : RojoTree) (specified : String) : Option Nat :=
  match t.specified_id_to_refs.get specified with
  | [referent] => some referent
  | _ => none

/-- `RojoTree::set_specified_id`: if the handle already had a (different or
equal) specified id, replace it in its metadata and remove the old index
entry; then always add the new index entry. -/
def RojoTree.set_specified_id (t : RojoTree) (id : Nat) (specified : String) :
    RojoTree :=
  let t1 :=
    match alistLookup t.metadata_map id with
    | some md =>
      match md.specified_id with
      | some old =>
        { t with
          metadata_map :=
            alistInsert t.metadata_map id { md with specified_id := some specified }
          specified_id_to_refs := t.specified_id_to_refs.remove old id }
      | none =>
        { t with
          metadata_map :=
            alistInsert t.metadata_map id { md with specified_id := some specified } }
    | none => t
  { t1 with specified_id_to_refs := t1.specified_id_to_refs.insert specified id }

/-- `RojoTree::insert_metadata`: index every relevant path, index the
specified id if any (the duplicate-declaration log line is elided), then
record the metadata. -/
def RojoTree.insert_metadata (t : RojoTree) (id : Nat)
    (metadata : InstanceMetadata) : RojoTree :=
  let t1 := { t with
    path_to_ids :=
      metadata.relevant_paths.foldl (fun m p => m.insert p id) t.path_to_ids }
  let t2 :=
    match metadata.specified_id with
    | some specified_id => t1.set_specified_id id specified_id
    | none => t1
  { t2 with metadata_map := alistInsert t2.metadata_map id metadata }

/-- `RojoTree::remove_metadata`: drop the metadata entry and prune both
indices.  The source `unwrap`s the metadata; a handle without metadata is a
precondition violation, modelled as a no-op. -/
def RojoTree.remove_metadata (t : RojoTree) (id : Nat) : RojoTree :=
  match alistLookup t.metadata_map id with
  | none => t
  | some metadata =>
    let t1 := { t with metadata_map := alistErase t.metadata_map id }
    let t2 :=
      match metadata.specified_id with
      | some specified => { t1 with
          specified_id_to_refs := t1.specified_id_to_refs.remove specified id }
      | none => t1
    { t2 with
      path_to_ids :=
        metadata.relevant_paths.foldl (fun m p => m.remove p id) t2.path_to_ids }

/-- The fixed allowlist of legacy 3-D-pivot-bearing classes of the
compatibility shim in `RojoTree::insert_instance`. -/
def shimClasses : List String :=
  ["Model", "Actor", "Tool", "HopperBin", "Flag", "WorldModel", "Workspace",
   "Status"]

/-- The pivot-migration compatibility shim of `RojoTree::insert_instance`
(isolated as a pure function as §4.1 of the spec suggests): inject
`NeedsPivotMigration = false` for the shimmed classes when the snapshot does
not already specify that property. -/
def legacyPivotShim (class_name : String) (properties : Props) : Props :=
  if shimClasses.contains class_name &&
      !propsContainsKey properties "NeedsPivotMigration" then
    [("NeedsPivotMigration", Variant.bool false)]
  else
    []

mutual

/-- `RojoTree::insert_instance`: apply the pivot shim, create the node in
the value store, attach metadata, then recursively insert the children. -/
def RojoTree.insert_instance (t : RojoTree) (parent_ref : Nat) :
    InstanceSnapshot → Nat × RojoTree
  | .mk class_name name properties metadata children =>
    let hack_needs_pivot_migration := legacyPivotShim class_name properties
    let props :=
      propsInsertAll (propsInsertAll [] hack_needs_pivot_migration) properties
    let res := t.inner.insert parent_ref class_name name props
    let t1 := { t with inner := res.2 }
    let t2 := t1.insert_metadata res.1 metadata
    (res.1, insertChildrenT t2 res.1 children)

def insertChildrenT (t : RojoTree) (parent_ref : Nat) :
    List InstanceSnapshot → RojoTree
  | [] => t
  | c :: rest =>
    insertChildrenT (RojoTree.insert_instance t parent_ref c).2 parent_ref rest

end

/-- `RojoTree::new`: build the value store with the snapshot's root (note:
no pivot shim on the root), attach the root metadata, then insert the child
snapshots. -/
def RojoTree.new : InstanceSnapshot → RojoTree
  | .mk class_name name properties metadata children =>
    let root := Inst.mk 0 name class_name (propsInsertAll [] properties) []
    let t0 : RojoTree :=
      ⟨⟨root, 1⟩, [], MultiMap.empty, MultiMap.empty⟩
    let t1 := t0.insert_metadata 0 metadata
    insertChildrenT t1 0 children

/-- `RojoTree::remove`: breadth-first over the subtree rooted at `id`,
remove each visited node's metadata, then destroy the subtree in the value
store.  The source's queue holds referents looked up in the dom, which does
not change during the loop, so the visit order is the breadth-first order of
the subtree (`bfsRefs`); a dead `id` makes the source panic on the first
`unwrap`, modelled as a no-op. -/
def RojoTree.remove (t : RojoTree) (id : Nat) : RojoTree :=
  match t.inner.root.find id with
  | none => t
  | some sub =>
    let t1 := (bfsRefs [sub]).foldl (fun acc r => acc.remove_metadata r) t
    { t1 with inner := t1.inner.destroy id }

/-- Body of the `Some(existing_metadata)` arm of `RojoTree::update_metadata`:
reconcile the Path Index when `relevant_paths` changed and the
Stable-Identifier Index when `specified_id` changed (add-before-remove),
then store the new metadata. -/
def RojoTree.updateMetadataExisting (t : RojoTree) (id : Nat)
    (existing_metadata metadata : InstanceMetadata) : RojoTree :=
  let t1 :=
      if existing_metadata.relevant_paths ≠ metadata.relevant_paths then
        let ta := { t with
          path_to_ids := existing_metadata.relevant_paths.foldl
            (fun m p => m.remove p id) t.path_to_ids }
        { ta with
          path_to_ids := metadata.relevant_paths.foldl
            (fun m p => m.insert p id) ta.path_to_ids }
      else t
    let t2 :=
      if existing_metadata.specified_id ≠ metadata.specified_id then
        let tb :=
          match metadata.specified_id with
          | some new => { t1 with
              specified_id_to_refs := t1.specified_id_to_refs.insert new id }
          | none => t1
        match existing_metadata.specified_id with
        | some old => { tb with
            specified_id_to_refs := tb.specified_id_to_refs.remove old id }
        | none => tb
      else t1
    { t2 with metadata_map := alistInsert t2.metadata_map id metadata }

/-- `RojoTree::update_metadata`: replace the metadata, reconciling the indices
when it already existed; first-time metadata is inserted without touching the
indices. -/
def RojoTree.update_metadata (t : RojoTree) (id : Nat)
    (metadata : InstanceMetadata) : RojoTree :=
  match alistLookup t.metadata_map id with
  | some existing_metadata => t.updateMetadataExisting id existing_metadata metadata
  | none =>
    { t with metadata_map := alistInsert t.metadata_map id metadata }

/-- `RojoTree::descendants`: the breadth-first sequence produced by
`RojoDescendants`, seeded with `id` itself; each yielded item is the
instance/metadata pair of the popped referent, represented here by the
referent.  A dead `id` makes the iterator's first `next` panic, modelled as
the empty sequence. -/
def RojoTree.descendants (t : RojoTree) (id : Nat) : List Nat :=
  match t.inner.root.find id with
  | none => []
  | some sub => bfsRefs [sub]

/-!  ## The sourcemap projection (`src/sourcemap.rs`)  -/

/-- `SourcemapNode`. -/
inductive SourcemapNode where
  | mk (name : String) (class_name : String) (file_paths : List String)
       (children : List SourcemapNode)

/-- `Path::strip_prefix(project_dir)`, modelled on string paths: drop the
project directory when it in fact leads the path. -/
def dropPathPre (project_dir p : String) : Option String :=
  if project_dir.isPrefixOf p then some (p.drop project_dir.length) else none

mutual

/-- `recurse_create_node`: project the children first, prune the node when
the projected child list is empty, otherwise keep the relevant paths that
exist as files (`is_file`, abstracted as the oracle `isFile`) and are
relative to the project directory.  The metadata lookup `expect`s a live
instance; the dead branch (unreachable for live trees) yields no paths. -/
def recurse_create_node (t : RojoTree) (isFile : String → Bool)
    (project_dir : String) : Inst → Option SourcemapNode
  | .mk r n c _ cs =>
    let children := recurseChildrenSM t isFile project_dir cs
    if children.isEmpty then none
    else
      let file_paths :=
        match alistLookup t.metadata_map r with
        | some md =>
          (md.relevant_paths.filter isFile).filterMap (dropPathPre project_dir)
        | none => []
      some (.mk n c file_paths children)

def recurseChildrenSM (t : RojoTree) (isFile : String → Bool)
    (project_dir : String) : List Inst → List SourcemapNode
  | [] => []
  | i :: rest =>
    match recurse_create_node t isFile project_dir i with
    | some node => node :: recurseChildrenSM t isFile project_dir rest
    | none => recurseChildrenSM t isFile project_dir rest

end

/-- The sourcemap projection of the subtree at a referent (`sourcemap`'s
call of `recurse_create_node` on a referent of the tree). -/
def sourcemapForRef (t : RojoTree) (isFile : String → Bool)
    (project_dir : String) (referent : Nat) : Option SourcemapNode :=
  match t.inner.root.find referent with
  | none => none
  | some i => recurse_create_node t isFile project_dir i

/-!  ## Pure characterizations of insertion

`insert_instance` interleaves value-store mutation, metadata registration
and index updates; the following pure functions compute, from the snapshot
alone, the subtree it builds, the referents it allocates and the
(referent, metadata) pairs it registers, in allocation (depth-first
preorder) order.  The lemmas below prove that `insert_instance` is
described by them. -/

mutual

/-- Total number of nodes of a snapshot. -/
def snapSize : InstanceSnapshot → Nat
  | .mk _ _ _ _ cs => 1 + snapSizeF cs

def snapSizeF : List InstanceSnapshot → Nat
  | [] => 0
  | s :: rest => snapSize s + snapSizeF rest

end

mutual

/-- The subtree `insert_instance` builds when the next fresh referent is
`n`, together with the next fresh referent after it. -/
def buildInst (n : Nat) : InstanceSnapshot → Inst × Nat
  | .mk class_name name properties _ cs =>
    let props :=
      propsInsertAll (propsInsertAll [] (legacyPivotShim class_name properties))
        properties
    let built := buildF (n + 1) cs
    (Inst.mk n name class_name props built.1, built.2)

def buildF (n : Nat) : List InstanceSnapshot → List Inst × Nat
  | [] => ([], n)
  | s :: rest =>
    let b := buildInst n s
    let bs := buildF b.2 rest
    (b.1 :: bs.1, bs.2)

end

mutual

/-- The (referent, metadata) pairs `insert_instance` registers, in
allocation (depth-first preorder) order, when the next fresh referent is
`n`, together with the next fresh referent. -/
def snapPairs (n : Nat) : InstanceSnapshot → List (Nat × InstanceMetadata) × Nat
  | .mk _ _ _ md cs =>
    let ps := snapPairsF (n + 1) cs
    ((n, md) :: ps.1, ps.2)

def snapPairsF (n : Nat) :
    List InstanceSnapshot → List (Nat × InstanceMetadata) × Nat
  | [] => ([], n)
  | s :: rest =>
    let p := snapPairs n s
    let pr := snapPairsF p.2 rest
    (p.1 ++ pr.1, pr.2)

end

/-- The ids appended to the Path Index under key `p` when the given
(referent, metadata) pairs are registered in order: each pair contributes
its referent once per occurrence of `p` in its `relevant_paths`. -/
def pathAdds (p : String) (pairs : List (Nat × InstanceMetadata)) : List Nat :=
  pairs.flatMap (fun pr =>
    List.replicate (pr.2.relevant_paths.count p) pr.1)

/-- The ids appended to the Stable-Identifier Index under key `q` when the
given pairs are registered in order. -/
def specAdds (q : String) (pairs : List (Nat × InstanceMetadata)) : List Nat :=
  pairs.filterMap (fun pr =>
    if pr.2.specified_id = some q then some pr.1 else none)

/-!  ## Invariants and reachable states  -/

/-- Well-formedness of a `MultiMap`: entry keys are pairwise distinct (the
source's `MultiMap` wraps a `HashMap`, whose keys are unique by nature);
maintained by construction since `insert` only appends an entry for a key
that has none. -/
def MMWF {K V : Type} (m : MultiMap K V) : Prop :=
  (m.entries.map Prod.fst).Nodup

/-- Attach each subtree of `ds`, in order, under the node with referent
`p`. -/
def Inst.insertList (i : Inst) (p : Nat) (ds : List Inst) : Inst :=
  ds.foldl (fun acc d => acc.insertChild p d) i

/-- The ids erased from the Path Index under key `k` when the metadata of
the referents `rs` (looked up in `t`) is removed in order. -/
def removedPathIds (t : RojoTree) (k : String) (rs : List Nat) : List Nat :=
  rs.flatMap (fun r =>
    match alistLookup t.metadata_map r with
    | some md => List.replicate (md.relevant_paths.count k) r
    | none => [])

/-- The ids erased from the Stable-Identifier Index under key `q` when the
metadata of the referents `rs` (looked up in `t`) is removed in order. -/
def removedSpecIds (t : RojoTree) (q : String) (rs : List Nat) : List Nat :=
  rs.filterMap (fun r =>
    match alistLookup t.metadata_map r with
    | some md => if md.specified_id = some q then some r else none
    | none => none)

/-- The referents of the live nodes of the value store. -/
def RojoTree.liveRefs (t : RojoTree) : List Nat :=
  t.inner.root.refsList

/-- The Path Index agrees with the metadata map: each live id occurs under
key `k` exactly as often as `k` occurs in its `relevant_paths`, and ids
without metadata do not occur at all. -/
def pathCountInv (t : RojoTree) : Prop :=
  ∀ k id, (t.path_to_ids.get k).count id =
    (match alistLookup t.metadata_map id with
     | some md => md.relevant_paths.count k
     | none => 0)

/-- The Stable-Identifier Index agrees with the metadata map: each live id
occurs under key `q` exactly once if its metadata declares `q` and not at
all otherwise. -/
def specCountInv (t : RojoTree) : Prop :=
  ∀ q id, (t.specified_id_to_refs.get q).count id =
    (match alistLookup t.metadata_map id with
     | some md => if md.specified_id = some q then 1 else 0
     | none => 0)

/-- The co-existence invariant of §3 of the spec: a node exists if and only
if its metadata exists. -/
def metaMatchesDom (t : RojoTree) : Prop :=
  ∀ x, (alistLookup t.metadata_map x).isSome = true ↔ x ∈ t.liveRefs

/-- The combined invariant of a well-formed `RojoTree`. -/
structure TreeInv (t : RojoTree) : Prop where
  domNodup : t.liveRefs.Nodup
  domBound : ∀ x ∈ t.liveRefs, x < t.inner.nextRef
  metaBound : ∀ e ∈ t.metadata_map, e.1 < t.inner.nextRef
  mmwfPath : MMWF t.path_to_ids
  mmwfSpec : MMWF t.specified_id_to_refs
  metaDom : metaMatchesDom t
  pathCount : pathCountInv t
  specCount : specCountInv t

/-- The tree states reachable by constructing a tree from a snapshot and
applying any sequence of the three mutating operations to live handles
(with the preconditions under which the source does not panic:
`insert_instance` under a live parent, `remove` of a live non-root handle,
`update_metadata` of a live handle). -/
inductive Reachable : RojoTree → Prop where
  | base (s : InstanceSnapshot) : Reachable (RojoTree.new s)
  | insert (t : RojoTree) (parent_ref : Nat) (s : InstanceSnapshot) :
      Reachable t → parent_ref ∈ t.liveRefs →
      Reachable (t.insert_instance parent_ref s).2
  | remove (t : RojoTree) (id : Nat) :
      Reachable t → id ∈ t.liveRefs → id ≠ t.get_root_id →
      Reachable (t.remove id)
  | update (t : RojoTree) (id : Nat) (md : InstanceMetadata) :
      Reachable t → id ∈ t.liveRefs →
      Reachable (t.update_metadata id md)

/-- Concrete snapshot of the `swap_duped_specified_ids` test of
`src/snapshot/tree.rs`: a node declaring stable identifier `"X"`. -/
def snapA : InstanceSnapshot :=
  .mk "Folder" "A" [] ⟨[], some "X"⟩ []

/-- A single-node snapshot declaring a relevant path and a stable id. -/
def snapB : InstanceSnapshot :=
  .mk "Script" "B" [] ⟨["p.lua"], some "X"⟩ []

/-- An empty root tree, as in the tests of `src/snapshot/tree.rs`. -/
def treeT : RojoTree := RojoTree.new (.mk "DataModel" "root" [] ⟨[], none⟩ [])

/-- First step of the `swap_duped_specified_ids` scenario. -/
def step1 : Nat × RojoTree := treeT.insert_instance 0 snapA

/-- Second step of the `swap_duped_specified_ids` scenario. -/
def step2 : Nat × RojoTree := step1.2.insert_instance 0 snapA

/-- A tree whose root is itself a file-backed leaf. -/
def c1tree : RojoTree :=
  RojoTree.new (.mk "Script" "root" [] ⟨["f.lua"], none⟩ [])

/-- A two-node snapshot (root with one child). -/
def c2snap : InstanceSnapshot :=
  .mk "Folder" "root" [] ⟨[], none⟩ [.mk "Folder" "child" [] ⟨[], none⟩ []]

/-!  ## Basic lemmas: sizes and the breadth-first worklist  -/

theorem szF_append (a b : List Inst) : szF (a ++ b) = szF a + szF b := by
  induction a with
  | nil => simp [szF]
  | cons i rest ih => simp [szF, ih]; omega

theorem bfsRefs_nil : bfsRefs [] = [] := rfl

theorem bfsRefs_cons (i : Inst) (rest : List Inst) :
    bfsRefs (i :: rest) = i.referent :: bfsRefs (rest ++ i.children) := by
  cases i with
  | mk r n c p cs =>
    have hsz : szF (Inst.mk r n c p cs :: rest) =
        (szF rest + szF cs) + 1 := by
      simp only [szF, Inst.sz]
      omega
    have hsz2 : szF (rest ++ (Inst.mk r n c p cs).children) =
        szF rest + szF cs := by
      simp only [szF_append, Inst.children]
    unfold bfsRefs
    rw [hsz, hsz2]
    rfl

theorem refsListF_append (a b : List Inst) :
    refsListF (a ++ b) = refsListF a ++ refsListF b := by
  induction a with
  | nil => simp [refsListF]
  | cons i rest ih => simp [refsListF, ih]

/-- The breadth-first traversal of a queue visits exactly the referents of
the queued subtrees (a permutation of the preorder enumeration). -/
theorem bfsRefs_perm : ∀ q : List Inst, List.Perm (bfsRefs q) (refsListF q)
  | [] => by simp [bfsRefs_nil, refsListF]
  | i :: rest => by
    rw [bfsRefs_cons]
    have ih := bfsRefs_perm (rest ++ i.children)
    rw [refsListF_append] at ih
    cases i with
    | mk r n c p cs =>
      simp only [refsListF, Inst.refsList, Inst.referent, Inst.children] at *
      exact List.Perm.trans (ih.cons r) (List.perm_append_comm.cons r)
termination_by q => szF q
decreasing_by
  cases i with
  | mk r n c p cs =>
    simp only [szF_append, szF, Inst.sz, Inst.children]
    omega

/-!  ## MultiMap lemmas: extensional behavior of get/insert/remove  -/

namespace MultiMap

theorem get_nil {K V : Type} [DecidableEq K] (k : K) :
    (MultiMap.mk ([] : List (K × List V))).get k = [] :=
  rfl

theorem get_cons {K V : Type} [DecidableEq K] (e : K × List V)
    (rest : List (K × List V)) (k : K) :
    (MultiMap.mk (e :: rest)).get k =
      if e.1 = k then e.2 else (MultiMap.mk rest).get k := by
  unfold get
  by_cases h : e.1 = k
  · rw [List.find?_cons_of_pos _ (by simpa using h), if_pos h]
  · rw [List.find?_cons_of_neg _ (by simpa using h), if_neg h]

theorem get_of_not_key {K V : Type} [DecidableEq K] (l : List (K × List V))
    (k : K) (h : k ∉ l.map Prod.fst) : (MultiMap.mk l).get k = [] := by
  induction l with
  | nil => rfl
  | cons e rest ih =>
    simp only [List.map_cons, List.mem_cons, not_or] at h
    rw [get_cons, if_neg (fun he => h.1 he.symm)]
    exact ih h.2

theorem mem_keys_of_any {K V : Type} [DecidableEq K]
    {l : List (K × List V)} {k : K}
    (h : l.any (fun e => e.1 = k) = true) : k ∈ l.map Prod.fst := by
  simp only [List.any_eq_true, decide_eq_true_eq] at h
  obtain ⟨e, hel, hek⟩ := h
  exact List.mem_map.mpr ⟨e, hel, hek⟩

theorem not_mem_keys_of_not_any {K V : Type} [DecidableEq K]
    {l : List (K × List V)} {k : K}
    (h : ¬ l.any (fun e => e.1 = k) = true) : k ∉ l.map Prod.fst := by
  intro hm
  apply h
  simp only [List.any_eq_true, decide_eq_true_eq]
  obtain ⟨e, hel, hek⟩ := List.mem_map.mp hm
  exact ⟨e, hel, hek⟩

theorem get_map_insert_mem {K V : Type} [DecidableEq K]
    (l : List (K × List V)) (k : K) (v : V) (h : k ∈ l.map Prod.fst) :
    (MultiMap.mk (l.map (fun e => if e.1 = k then (e.1, e.2 ++ [v]) else e))).get k
      = (MultiMap.mk l).get k ++ [v] := by
  induction l with
  | nil => simp at h
  | cons e rest ih =>
    by_cases he : e.1 = k
    · simp [List.map_cons, get_cons, he]
    · have h' : k ∈ rest.map Prod.fst := by
        simp only [List.map_cons, List.mem_cons] at h
        rcases h with h1 | h1
        · exact absurd h1.symm he
        · exact h1
      simp only [List.map_cons, if_neg he]
      rw [get_cons, get_cons]
      simp only [if_neg he]
      exact ih h'

theorem get_map_insert_ne {K V : Type} [DecidableEq K]
    (l : List (K × List V)) (k k' : K) (v : V) (h : ¬ k' = k) :
    (MultiMap.mk (l.map (fun e => if e.1 = k then (e.1, e.2 ++ [v]) else e))).get k'
      = (MultiMap.mk l).get k' := by
  induction l with
  | nil => rfl
  | cons e rest ih =>
    by_cases he : e.1 = k
    · have he' : ¬ e.1 = k' := fun hh => h (hh ▸ he ▸ rfl)
      simp only [List.map_cons, if_pos he]
      rw [get_cons, get_cons]
      rw [if_neg (by simpa using he'), if_neg he']
      exact ih
    · simp only [List.map_cons, if_neg he]
      rw [get_cons, get_cons]
      by_cases he' : e.1 = k'
      · rw [if_pos he', if_pos he']
      · rw [if_neg he', if_neg he']
        exact ih

theorem get_append_single_self {K V : Type} [DecidableEq K]
    (l : List (K × List V)) (k : K) (vs : List V) (h : k ∉ l.map Prod.fst) :
    (MultiMap.mk (l ++ [(k, vs)])).get k = vs := by
  induction l with
  | nil => simp [get_cons]
  | cons e rest ih =>
    simp only [List.map_cons, List.mem_cons, not_or] at h
    simp only [List.cons_append]
    rw [get_cons, if_neg (fun he => h.1 he.symm)]
    exact ih h.2

theorem get_append_single_ne {K V : Type} [DecidableEq K]
    (l : List (K × List V)) (k k' : K) (vs : List V) (h : ¬ k' = k) :
    (MultiMap.mk (l ++ [(k, vs)])).get k' = (MultiMap.mk l).get k' := by
  induction l with
  | nil =>
    simp only [List.nil_append]
    rw [get_cons, if_neg (fun hh => h hh.symm)]
  | cons e rest ih =>
    simp only [List.cons_append]
    rw [get_cons, get_cons]
    by_cases he' : e.1 = k'
    · rw [if_pos he', if_pos he']
    · rw [if_neg he', if_neg he']
      exact ih

theorem get_insert_self {K V : Type} [DecidableEq K] (m : MultiMap K V)
    (k : K) (v : V) : (m.insert k v).get k = m.get k ++ [v] := by
  obtain ⟨l⟩ := m
  unfold insert
  by_cases h : l.any (fun e => e.1 = k) = true
  · rw [if_pos h]
    exact get_map_insert_mem l k v (mem_keys_of_any h)
  · rw [if_neg h]
    have hk := not_mem_keys_of_not_any h
    rw [get_append_single_self l k [v] hk, get_of_not_key l k hk]
    rfl

theorem get_insert_ne {K V : Type} [DecidableEq K] (m : MultiMap K V)
    (k k' : K) (v : V) (h : ¬ k' = k) :
    (m.insert k v).get k' = m.get k' := by
  obtain ⟨l⟩ := m
  unfold insert
  by_cases hk : l.any (fun e => e.1 = k) = true
  · rw [if_pos hk]
    exact get_map_insert_ne l k k' v h
  · rw [if_neg hk]
    exact get_append_single_ne l k k' [v] h

theorem mmwf_empty {K V : Type} : MMWF (empty : MultiMap K V) := by
  simp [MMWF, empty]

theorem get_empty {K V : Type} [DecidableEq K] (k : K) :
    (empty : MultiMap K V).get k = [] := rfl

theorem keys_remove_sublist {K V : Type} [DecidableEq K] [DecidableEq V]
    (m : MultiMap K V) (k : K) (v : V) :
    ((m.remove k v).entries.map Prod.fst).Sublist (m.entries.map Prod.fst) := by
  obtain ⟨l⟩ := m
  unfold remove
  induction l with
  | nil => simp
  | cons e rest ih =>
    simp only [List.filterMap_cons]
    by_cases he : e.1 = k
    · rw [if_pos he]
      by_cases hemp : (e.2.erase v).isEmpty = true
      · simp only [hemp, if_true]
        exact ih.trans (List.sublist_cons_self _ _)
      · simp only [hemp, if_false, List.map_cons]
        exact ih.cons₂ _
    · rw [if_neg he]
      simp only [List.map_cons]
      exact ih.cons₂ _

theorem get_remove_ne {K V : Type} [DecidableEq K] [DecidableEq V]
    (m : MultiMap K V) (k k' : K) (v : V) (h : ¬ k' = k) :
    (m.remove k v).get k' = m.get k' := by
  obtain ⟨l⟩ := m
  unfold remove
  induction l with
  | nil => rfl
  | cons e rest ih =>
    by_cases he : e.1 = k
    · have hk' : ¬ (k : K) = k' := fun hh => h hh.symm
      have he' : ¬ e.1 = k' := fun hh => h (hh ▸ he ▸ rfl)
      by_cases hemp : (e.2.erase v).isEmpty = true
      · simp only [List.filterMap_cons, he, hemp, eq_self_iff_true, if_true]
        rw [get_cons, if_neg he']
        exact ih
      · simp only [List.filterMap_cons, he, hemp, eq_self_iff_true, if_true,
          Bool.false_eq_true, if_false]
        rw [get_cons, get_cons]
        rw [if_neg (by simpa using hk'), if_neg he']
        exact ih
    · simp only [List.filterMap_cons, he, if_false]
      rw [get_cons, get_cons]
      by_cases he' : e.1 = k'
      · rw [if_pos he', if_pos he']
      · rw [if_neg he', if_neg he']
        exact ih

theorem get_remove_self {K V : Type} [DecidableEq K] [DecidableEq V]
    (m : MultiMap K V) (k : K) (v : V) (hw : MMWF m) :
    (m.remove k v).get k = (m.get k).erase v := by
  obtain ⟨l⟩ := m
  unfold MMWF at hw
  unfold remove
  induction l with
  | nil => rfl
  | cons e rest ih =>
    simp only [List.map_cons, List.nodup_cons] at hw
    by_cases he : e.1 = k
    · have hnk : k ∉ (rest.filterMap (fun e =>
          if e.1 = k then
            if (e.2.erase v).isEmpty then none else some (e.1, e.2.erase v)
          else some e)).map Prod.fst := by
        intro hmem
        apply hw.1
        rw [he]
        have hsub := keys_remove_sublist (MultiMap.mk rest) k v
        unfold remove at hsub
        exact hsub.mem hmem
      by_cases hemp : (e.2.erase v).isEmpty = true
      · simp only [List.filterMap_cons, he, hemp, eq_self_iff_true, if_true]
        rw [get_of_not_key _ _ hnk, get_cons, if_pos he]
        rw [List.isEmpty_iff] at hemp
        rw [hemp]
      · simp only [List.filterMap_cons, he, hemp, eq_self_iff_true, if_true,
          Bool.false_eq_true, if_false]
        rw [get_cons, get_cons]
        rw [if_pos (show ((k : K), e.2.erase v).1 = k from rfl), if_pos he]
    · simp only [List.filterMap_cons, he, if_false]
      rw [get_cons, get_cons]
      rw [if_neg he, if_neg he]
      exact ih hw.2

theorem mmwf_insert {K V : Type} [DecidableEq K] (m : MultiMap K V)
    (k : K) (v : V) (hw : MMWF m) : MMWF (m.insert k v) := by
  obtain ⟨l⟩ := m
  unfold MMWF at *
  unfold insert
  by_cases h : l.any (fun e => e.1 = k) = true
  · rw [if_pos h]
    have hkeys : (l.map (fun e => if e.1 = k then (e.1, e.2 ++ [v]) else e)).map
        Prod.fst = l.map Prod.fst := by
      rw [List.map_map]
      apply List.map_congr_left
      intro e _
      by_cases he : e.1 = k <;> simp [he]
    simpa [hkeys] using hw
  · rw [if_neg h]
    have hk := not_mem_keys_of_not_any h
    simp only [List.map_append, List.map_cons, List.map_nil]
    rw [List.nodup_append]
    refine ⟨hw, List.nodup_singleton k, ?_⟩
    intro x hx hxk
    rw [List.mem_singleton] at hxk
    exact hk (hxk ▸ hx)

theorem mmwf_remove {K V : Type} [DecidableEq K] [DecidableEq V]
    (m : MultiMap K V) (k : K) (v : V) (hw : MMWF m) : MMWF (m.remove k v) :=
  (keys_remove_sublist m k v).nodup hw

end MultiMap

/-!  ## Association-list lemmas for the metadata map  -/

theorem alistLookup_cons (e : Nat × InstanceMetadata)
    (rest : List (Nat × InstanceMetadata)) (r : Nat) :
    alistLookup (e :: rest) r =
      if e.1 = r then some e.2 else alistLookup rest r := by
  unfold alistLookup
  by_cases h : e.1 = r
  · rw [List.find?_cons_of_pos _ (by simpa using h), if_pos h]
    rfl
  · rw [List.find?_cons_of_neg _ (by simpa using h), if_neg h]

theorem alistLookup_eq_none_of_not_key (m : List (Nat × InstanceMetadata))
    (r : Nat) (h : r ∉ m.map Prod.fst) : alistLookup m r = none := by
  induction m with
  | nil => rfl
  | cons e rest ih =>
    simp only [List.map_cons, List.mem_cons, not_or] at h
    rw [alistLookup_cons, if_neg (fun he => h.1 he.symm)]
    exact ih h.2

theorem alistLookup_mem_key (m : List (Nat × InstanceMetadata)) (r : Nat)
    (md : InstanceMetadata) (h : alistLookup m r = some md) :
    r ∈ m.map Prod.fst := by
  by_contra hc
  rw [alistLookup_eq_none_of_not_key m r hc] at h
  exact Option.noConfusion h

theorem alistLookup_append_right (m p : List (Nat × InstanceMetadata))
    (r : Nat) (h : alistLookup m r = none) :
    alistLookup (m ++ p) r = alistLookup p r := by
  induction m with
  | nil => simp
  | cons e rest ih =>
    rw [alistLookup_cons] at h
    rw [List.cons_append, alistLookup_cons]
    by_cases he : e.1 = r
    · rw [if_pos he] at h
      exact Option.noConfusion h
    · rw [if_neg he] at h ⊢
      exact ih h

theorem alistLookup_append_left (m p : List (Nat × InstanceMetadata))
    (r : Nat) (md : InstanceMetadata) (h : alistLookup m r = some md) :
    alistLookup (m ++ p) r = some md := by
  induction m with
  | nil => exact Option.noConfusion h
  | cons e rest ih =>
    rw [alistLookup_cons] at h
    rw [List.cons_append, alistLookup_cons]
    by_cases he : e.1 = r
    · rwa [if_pos he] at h ⊢
    · rw [if_neg he] at h ⊢
      exact ih h

theorem any_key_iff_mem (m : List (Nat × InstanceMetadata)) (r : Nat) :
    m.any (fun e => e.1 = r) = true ↔ r ∈ m.map Prod.fst := by
  simp only [List.any_eq_true, decide_eq_true_eq, List.mem_map]

theorem alistInsert_of_not_key (m : List (Nat × InstanceMetadata)) (r : Nat)
    (md : InstanceMetadata) (h : r ∉ m.map Prod.fst) :
    alistInsert m r md = m ++ [(r, md)] := by
  unfold alistInsert
  rw [if_neg]
  intro hc
  exact h ((any_key_iff_mem m r).mp hc)

theorem alistLookup_insert_self (m : List (Nat × InstanceMetadata)) (r : Nat)
    (md : InstanceMetadata) : alistLookup (alistInsert m r md) r = some md := by
  unfold alistInsert
  by_cases h : m.any (fun e => e.1 = r) = true
  · rw [if_pos h]
    induction m with
    | nil => simp at h
    | cons e rest ih =>
      by_cases he : e.1 = r
      · simp only [List.map_cons, if_pos he]
        rw [alistLookup_cons, if_pos rfl]
      · simp only [List.map_cons, if_neg he]
        rw [alistLookup_cons, if_neg he]
        apply ih
        simp only [List.any_cons, Bool.or_eq_true] at h
        rcases h with h | h
        · exact absurd (by simpa using h) he
        · exact h
  · rw [if_neg h]
    rw [alistLookup_append_right]
    · rw [alistLookup_cons, if_pos rfl]
    · exact alistLookup_eq_none_of_not_key m r
        (fun hm => h ((any_key_iff_mem m r).mpr hm))

theorem alistLookup_map_ne (m : List (Nat × InstanceMetadata)) (r x : Nat)
    (md : InstanceMetadata) (h : ¬ x = r) :
    alistLookup (m.map (fun e => if e.1 = r then (r, md) else e)) x =
      alistLookup m x := by
  induction m with
  | nil => rfl
  | cons e rest ih =>
    simp only [List.map_cons]
    by_cases he : e.1 = r
    · rw [if_pos he, alistLookup_cons, alistLookup_cons]
      rw [if_neg (fun hh => h hh.symm), if_neg (fun hh : e.1 = x => h (hh ▸ he))]
      exact ih
    · rw [if_neg he, alistLookup_cons, alistLookup_cons]
      by_cases he' : e.1 = x
      · rw [if_pos he', if_pos he']
      · rw [if_neg he', if_neg he']
        exact ih

theorem alistLookup_insert_ne (m : List (Nat × InstanceMetadata)) (r x : Nat)
    (md : InstanceMetadata) (h : ¬ x = r) :
    alistLookup (alistInsert m r md) x = alistLookup m x := by
  unfold alistInsert
  by_cases hk : m.any (fun e => e.1 = r) = true
  · rw [if_pos hk]
    exact alistLookup_map_ne m r x md h
  · rw [if_neg hk]
    by_cases hm : alistLookup m x = none
    · rw [alistLookup_append_right _ _ _ hm, hm]
      rw [alistLookup_cons, if_neg (fun hh => h hh.symm)]
      rfl
    · obtain ⟨md', hmd⟩ := Option.ne_none_iff_exists'.mp hm
      rw [alistLookup_append_left _ _ _ _ hmd, hmd]

theorem alistLookup_erase_self (m : List (Nat × InstanceMetadata)) (r : Nat) :
    alistLookup (alistErase m r) r = none := by
  apply alistLookup_eq_none_of_not_key
  intro hm
  obtain ⟨e, hel, hek⟩ := List.mem_map.mp hm
  unfold alistErase at hel
  rw [List.mem_filter] at hel
  have := hel.2
  simp only [decide_eq_true_eq] at this
  exact this (by rw [hek])

theorem alistLookup_erase_ne (m : List (Nat × InstanceMetadata)) (r x : Nat)
    (h : ¬ x = r) : alistLookup (alistErase m r) x = alistLookup m x := by
  unfold alistErase
  induction m with
  | nil => rfl
  | cons e rest ih =>
    by_cases he : e.1 = r
    · rw [List.filter_cons_of_neg (by simpa using he)]
      rw [alistLookup_cons, if_neg (fun hh : e.1 = x => h (hh ▸ he))]
      exact ih
    · rw [List.filter_cons_of_pos (by simpa using he)]
      rw [alistLookup_cons, alistLookup_cons]
      by_cases he' : e.1 = x
      · rw [if_pos he', if_pos he']
      · rw [if_neg he', if_neg he']
        exact ih

/-!  ## Fold lemmas: how index folds act per key  -/

theorem get_foldl_insert (paths : List String) (m : MultiMap String Nat)
    (id : Nat) (k : String) :
    (paths.foldl (fun m p => m.insert p id) m).get k =
      m.get k ++ List.replicate (paths.count k) id := by
  induction paths generalizing m with
  | nil => simp
  | cons p rest ih =>
    rw [List.foldl_cons, ih]
    by_cases hp : p = k
    · subst hp
      rw [MultiMap.get_insert_self]
      rw [List.count_cons_self, List.append_assoc]
      congr 1
    · rw [MultiMap.get_insert_ne _ _ _ _ (fun hh => hp hh.symm)]
      congr 2
      rw [List.count_cons_of_ne (fun hh => hp (by simpa using hh.symm))]

theorem mmwf_foldl_insert (paths : List String) (m : MultiMap String Nat)
    (id : Nat) (hw : MMWF m) :
    MMWF (paths.foldl (fun m p => m.insert p id) m) := by
  induction paths generalizing m with
  | nil => exact hw
  | cons p rest ih =>
    rw [List.foldl_cons]
    exact ih _ (MultiMap.mmwf_insert _ _ _ hw)

theorem get_foldl_remove (paths : List String) (m : MultiMap String Nat)
    (id : Nat) (k : String) (hw : MMWF m) :
    (paths.foldl (fun m p => m.remove p id) m).get k =
      (List.replicate (paths.count k) id).foldl List.erase (m.get k) := by
  induction paths generalizing m with
  | nil => simp
  | cons p rest ih =>
    rw [List.foldl_cons, ih _ (MultiMap.mmwf_remove _ _ _ hw)]
    by_cases hp : p = k
    · subst hp
      rw [MultiMap.get_remove_self _ _ _ hw]
      rw [List.count_cons_self, List.replicate_succ, List.foldl_cons]
    · rw [MultiMap.get_remove_ne _ _ _ _ (fun hh => hp hh.symm)]
      rw [List.count_cons_of_ne (fun hh => hp (by simpa using hh.symm))]

theorem mmwf_foldl_remove (paths : List String) (m : MultiMap String Nat)
    (id : Nat) (hw : MMWF m) :
    MMWF (paths.foldl (fun m p => m.remove p id) m) := by
  induction paths generalizing m with
  | nil => exact hw
  | cons p rest ih =>
    rw [List.foldl_cons]
    exact ih _ (MultiMap.mmwf_remove _ _ _ hw)

/-!  ## Erase-fold algebra  -/

theorem count_foldl_erase (rs : List Nat) (l : List Nat) (x : Nat) :
    (rs.foldl List.erase l).count x = l.count x - rs.count x := by
  induction rs generalizing l with
  | nil => simp
  | cons r rest ih =>
    rw [List.foldl_cons, ih]
    by_cases hr : r = x
    · subst hr
      rw [List.count_erase_self, List.count_cons_self]
      omega
    · rw [List.count_erase_of_ne (fun hh => hr hh.symm)]
      rw [List.count_cons_of_ne (fun hh => hr (by simpa using hh.symm))]

theorem mem_foldl_erase_of_notMem (rs : List Nat) (l : List Nat) (x : Nat)
    (hx : x ∉ rs) : x ∈ rs.foldl List.erase l ↔ x ∈ l := by
  rw [← List.count_pos_iff, ← List.count_pos_iff]
  rw [count_foldl_erase]
  rw [List.count_eq_zero.mpr hx]
  omega

theorem foldl_erase_append_perm :
    ∀ (rs adds l : List Nat), List.Perm rs adds → (∀ v ∈ adds, v ∉ l) →
      rs.foldl List.erase (l ++ adds) = l
  | [], adds, l, hp, _ => by
    have : adds = [] := (List.perm_nil.mp hp.symm)
    simp [this]
  | r :: rest, adds, l, hp, hfresh => by
    have hr : r ∈ adds := hp.subset (List.mem_cons_self r rest)
    have h1 : (l ++ adds).erase r = l ++ adds.erase r :=
      List.erase_append_right _ (hfresh r hr)
    rw [List.foldl_cons, h1]
    apply foldl_erase_append_perm rest (adds.erase r) l
    · exact (List.cons_perm_iff_perm_erase.mp hp).2
    · intro v hv
      exact hfresh v (List.mem_of_mem_erase hv)

/-!  ## Bookkeeping for the pure insertion characterizations  -/

mutual

theorem snapPairs_snd : ∀ (n : Nat) (s : InstanceSnapshot),
    (snapPairs n s).2 = n + snapSize s
  | n, .mk c nm pr md cs => by
    simp [snapPairs, snapSize, snapPairsF_snd]
    omega

theorem snapPairsF_snd : ∀ (n : Nat) (cs : List InstanceSnapshot),
    (snapPairsF n cs).2 = n + snapSizeF cs
  | n, [] => by simp [snapPairsF, snapSizeF]
  | n, s :: rest => by
    simp [snapPairsF, snapSizeF, snapPairsF_snd, snapPairs_snd]
    omega

end

mutual

theorem buildInst_snd : ∀ (n : Nat) (s : InstanceSnapshot),
    (buildInst n s).2 = n + snapSize s
  | n, .mk c nm pr md cs => by
    simp [buildInst, snapSize, buildF_snd]
    omega

theorem buildF_snd : ∀ (n : Nat) (cs : List InstanceSnapshot),
    (buildF n cs).2 = n + snapSizeF cs
  | n, [] => by simp [buildF, snapSizeF]
  | n, s :: rest => by
    simp [buildF, snapSizeF, buildF_snd, buildInst_snd]
    omega

end

mutual

theorem refsList_build : ∀ (n : Nat) (s : InstanceSnapshot),
    Inst.refsList (buildInst n s).1 = ((snapPairs n s).1).map Prod.fst
  | n, .mk c nm pr md cs => by
    simp only [buildInst, snapPairs, Inst.refsList, List.map_cons]
    rw [refsListF_build]

theorem refsListF_build : ∀ (n : Nat) (cs : List InstanceSnapshot),
    refsListF (buildF n cs).1 = ((snapPairsF n cs).1).map Prod.fst
  | n, [] => by simp [buildF, snapPairsF, refsListF]
  | n, s :: rest => by
    simp only [buildF, snapPairsF, refsListF, List.map_append]
    rw [refsList_build, refsListF_build, buildInst_snd, snapPairs_snd]

end

mutual

theorem snapPairs_keys : ∀ (n : Nat) (s : InstanceSnapshot),
    ((snapPairs n s).1).map Prod.fst = List.range' n (snapSize s)
  | n, .mk c nm pr md cs => by
    simp only [snapPairs, snapSize, List.map_cons]
    rw [snapPairsF_keys]
    rw [show 1 + snapSizeF cs = snapSizeF cs + 1 from Nat.add_comm _ _]
    rw [List.range'_succ]

theorem snapPairsF_keys : ∀ (n : Nat) (cs : List InstanceSnapshot),
    ((snapPairsF n cs).1).map Prod.fst = List.range' n (snapSizeF cs)
  | n, [] => by simp [snapPairsF, snapSizeF]
  | n, s :: rest => by
    simp only [snapPairsF, snapSizeF, List.map_append]
    rw [snapPairs_keys, snapPairsF_keys, snapPairs_snd]
    rw [show List.range' (n + snapSize s) (snapSizeF rest) =
        List.range' (n + 1 * snapSize s) (snapSizeF rest) by rw [Nat.one_mul]]
    rw [List.range'_append]
    rw [Nat.add_comm (snapSizeF rest) (snapSize s)]

end

theorem snapPairs_keys_mem {n x : Nat} {s : InstanceSnapshot}
    (h : x ∈ ((snapPairs n s).1).map Prod.fst) :
    n ≤ x ∧ x < n + snapSize s := by
  rw [snapPairs_keys] at h
  rw [List.mem_range'] at h
  obtain ⟨i, hi, hx⟩ := h
  subst hx
  omega

theorem snapPairs_keys_nodup (n : Nat) (s : InstanceSnapshot) :
    (((snapPairs n s).1).map Prod.fst).Nodup := by
  rw [snapPairs_keys]
  exact List.nodup_range' _ _

/-!  ## Structural lemmas about the arena tree: attaching children  -/

theorem insertChildF_append (a b : List Inst) (p : Nat) (c : Inst) :
    insertChildF (a ++ b) p c = insertChildF a p c ++ insertChildF b p c := by
  induction a with
  | nil => simp [insertChildF]
  | cons i rest ih => simp [insertChildF, ih]

mutual

theorem insertChild_notMem : ∀ (i : Inst) (p : Nat) (c : Inst),
    p ∉ Inst.refsList i → i.insertChild p c = i
  | .mk r nm cl pr cs, p, c => by
    intro h
    simp only [Inst.refsList, List.mem_cons, not_or] at h
    simp only [Inst.insertChild]
    rw [if_neg (fun hh => h.1 hh.symm)]
    rw [insertChildF_notMem cs p c h.2]

theorem insertChildF_notMem : ∀ (l : List Inst) (p : Nat) (c : Inst),
    p ∉ refsListF l → insertChildF l p c = l
  | [], _, _ => by intro _; rfl
  | i :: rest, p, c => by
    intro h
    simp only [refsListF, List.mem_append, not_or] at h
    simp only [insertChildF]
    rw [insertChild_notMem i p c h.1, insertChildF_notMem rest p c h.2]

end

mutual

theorem refs_insertChild : ∀ (i : Inst) (p : Nat) (c : Inst),
    (Inst.refsList i).count p = 1 →
    List.Perm (Inst.refsList (i.insertChild p c))
      (Inst.refsList i ++ Inst.refsList c)
  | .mk r nm cl pr cs, p, c => by
    intro h
    simp only [Inst.insertChild]
    by_cases hr : r = p
    · rw [if_pos hr]
      simp only [Inst.refsList, refsListF_append, refsListF, List.append_nil,
        List.cons_append]
      exact List.Perm.refl _
    · rw [if_neg hr]
      simp only [Inst.refsList, List.cons_append]
      refine List.Perm.cons r ?_
      apply refs_insertChildF
      simp only [Inst.refsList] at h
      rw [List.count_cons_of_ne (fun hh => hr (by simpa using hh.symm))] at h
      exact h

theorem refs_insertChildF : ∀ (l : List Inst) (p : Nat) (c : Inst),
    (refsListF l).count p = 1 →
    List.Perm (refsListF (insertChildF l p c))
      (refsListF l ++ Inst.refsList c)
  | [], p, c => by
    intro h
    simp [refsListF] at h
  | i :: rest, p, c => by
    intro h
    simp only [refsListF, List.count_append] at h
    simp only [insertChildF, refsListF]
    by_cases him : (Inst.refsList i).count p = 1
    · have hrest : p ∉ refsListF rest := by
        rw [← List.count_eq_zero]
        omega
      rw [insertChildF_notMem rest p c hrest]
      refine List.Perm.trans (List.Perm.append_right (refsListF rest)
        (refs_insertChild i p c him)) ?_
      rw [List.append_assoc, List.append_assoc]
      exact List.Perm.append_left _ List.perm_append_comm
    · have him0 : (Inst.refsList i).count p = 0 := by omega
      have hrest : (refsListF rest).count p = 1 := by omega
      rw [insertChild_notMem i p c (List.count_eq_zero.mp him0)]
      rw [List.append_assoc]
      exact List.Perm.append_left _ (refs_insertChildF rest p c hrest)

end

mutual

theorem insertChild_insertChild_fresh :
    ∀ (i : Inst) (p tgt : Nat) (c d : Inst), tgt ∉ Inst.refsList i →
      (i.insertChild p c).insertChild tgt d =
        i.insertChild p (c.insertChild tgt d)
  | .mk r nm cl pr cs, p, tgt, c, d => by
    intro h
    simp only [Inst.refsList, List.mem_cons, not_or] at h
    by_cases hr : r = p
    · simp only [Inst.insertChild, if_pos hr]
      rw [if_neg (fun hh => h.1 hh.symm)]
      rw [insertChildF_append]
      rw [insertChildF_notMem cs tgt d h.2]
      simp [insertChildF]
    · simp only [Inst.insertChild, if_neg hr]
      rw [if_neg (fun hh => h.1 hh.symm)]
      rw [insertChildF_insertChildF_fresh cs p tgt c d h.2]

theorem insertChildF_insertChildF_fresh :
    ∀ (l : List Inst) (p tgt : Nat) (c d : Inst), tgt ∉ refsListF l →
      insertChildF (insertChildF l p c) tgt d =
        insertChildF l p (c.insertChild tgt d)
  | [], _, _, _, _ => by intro _; rfl
  | i :: rest, p, tgt, c, d => by
    intro h
    simp only [refsListF, List.mem_append, not_or] at h
    simp only [insertChildF]
    rw [insertChild_insertChild_fresh i p tgt c d h.1,
        insertChildF_insertChildF_fresh rest p tgt c d h.2]

end

theorem insertList_attached (ds : List Inst) :
    ∀ (i : Inst) (p tgt : Nat) (c : Inst), tgt ∉ Inst.refsList i →
      (i.insertChild p c).insertList tgt ds =
        i.insertChild p (c.insertList tgt ds) := by
  induction ds with
  | nil => intro i p tgt c _; rfl
  | cons d ds ih =>
    intro i p tgt c h
    show ((i.insertChild p c).insertChild tgt d).insertList tgt ds =
      i.insertChild p ((c.insertChild tgt d).insertList tgt ds)
    rw [insertChild_insertChild_fresh i p tgt c d h]
    exact ih i p tgt (c.insertChild tgt d) h

theorem insertList_mk_self (ds : List Inst) :
    ∀ (r : Nat) (nm cl : String) (pr : Props) (cs : List Inst),
      (Inst.mk r nm cl pr cs).insertList r ds = Inst.mk r nm cl pr (cs ++ ds) := by
  induction ds with
  | nil => intro r nm cl pr cs; simp [Inst.insertList]
  | cons d ds ih =>
    intro r nm cl pr cs
    show ((Inst.mk r nm cl pr cs).insertChild r d).insertList r ds = _
    have : (Inst.mk r nm cl pr cs).insertChild r d =
        Inst.mk r nm cl pr (cs ++ [d]) := by
      simp [Inst.insertChild]
    rw [this, ih]
    simp

/-!  ## Structural lemmas: find  -/

theorem findF_append (a b : List Inst) (tgt : Nat) :
    findF (a ++ b) tgt =
      match findF a tgt with
      | some x => some x
      | none => findF b tgt := by
  induction a with
  | nil => simp [findF]
  | cons i rest ih =>
    simp only [List.cons_append, findF]
    cases i.find tgt with
    | some x => rfl
    | none => exact ih

mutual

theorem find_none_iff : ∀ (i : Inst) (tgt : Nat),
    i.find tgt = none ↔ tgt ∉ Inst.refsList i
  | .mk r nm cl pr cs, tgt => by
    simp only [Inst.find, Inst.refsList, List.mem_cons, not_or]
    by_cases hr : r = tgt
    · rw [if_pos hr]
      simp [hr]
    · rw [if_neg hr]
      rw [findF_none_iff cs tgt]
      have htr : ¬ tgt = r := fun hh => hr hh.symm
      simp [htr]

theorem findF_none_iff : ∀ (l : List Inst) (tgt : Nat),
    findF l tgt = none ↔ tgt ∉ refsListF l
  | [], tgt => by simp [findF, refsListF]
  | i :: rest, tgt => by
    simp only [findF, refsListF, List.mem_append, not_or]
    cases hi : i.find tgt with
    | some x =>
      constructor
      · intro h
        exact Option.noConfusion h
      · intro h
        exact absurd ((find_none_iff i tgt).mpr h.1) (by simp [hi])
    | none =>
      rw [findF_none_iff rest tgt]
      have : tgt ∉ Inst.refsList i := (find_none_iff i tgt).mp hi
      simp [this]

end

mutual

theorem find_some_sub : ∀ (i : Inst) (tgt : Nat) (sub : Inst),
    i.find tgt = some sub →
    sub.referent = tgt ∧ (Inst.refsList sub).Sublist (Inst.refsList i)
  | .mk r nm cl pr cs, tgt, sub => by
    intro h
    simp only [Inst.find] at h
    by_cases hr : r = tgt
    · rw [if_pos hr] at h
      cases h
      exact ⟨hr, List.Sublist.refl _⟩
    · rw [if_neg hr] at h
      obtain ⟨h1, h2⟩ := findF_some_sub cs tgt sub h
      exact ⟨h1, by
        simp only [Inst.refsList]
        exact h2.trans (List.sublist_cons_self _ _)⟩

theorem findF_some_sub : ∀ (l : List Inst) (tgt : Nat) (sub : Inst),
    findF l tgt = some sub →
    sub.referent = tgt ∧ (Inst.refsList sub).Sublist (refsListF l)
  | [], tgt, sub => by intro h; exact Option.noConfusion h
  | i :: rest, tgt, sub => by
    intro h
    simp only [findF] at h
    cases hi : i.find tgt with
    | some x =>
      rw [hi] at h
      cases h
      obtain ⟨h1, h2⟩ := find_some_sub i tgt sub hi
      refine ⟨h1, ?_⟩
      simp only [refsListF]
      exact h2.trans (List.sublist_append_left _ _)
    | none =>
      rw [hi] at h
      obtain ⟨h1, h2⟩ := findF_some_sub rest tgt sub h
      refine ⟨h1, ?_⟩
      simp only [refsListF]
      exact h2.trans (List.sublist_append_right _ _)

end

mutual

theorem refs_insertChild_subset : ∀ (i : Inst) (p : Nat) (c : Inst),
    ∀ x ∈ Inst.refsList (i.insertChild p c),
      x ∈ Inst.refsList i ∨ x ∈ Inst.refsList c
  | .mk r nm cl pr cs, p, c => by
    intro x hx
    simp only [Inst.insertChild] at hx
    by_cases hr : r = p
    · rw [if_pos hr] at hx
      simp only [Inst.refsList, refsListF_append, refsListF, List.append_nil,
        List.mem_cons, List.mem_append] at hx
      simp only [Inst.refsList, List.mem_cons]
      tauto
    · rw [if_neg hr] at hx
      simp only [Inst.refsList, List.mem_cons] at hx ⊢
      rcases hx with hx | hx
      · tauto
      · rcases refsF_insertChildF_subset cs p c x hx with h | h
        · tauto
        · tauto

theorem refsF_insertChildF_subset : ∀ (l : List Inst) (p : Nat) (c : Inst),
    ∀ x ∈ refsListF (insertChildF l p c),
      x ∈ refsListF l ∨ x ∈ Inst.refsList c
  | [], p, c => by intro x hx; exact absurd hx (by simp [insertChildF, refsListF])
  | i :: rest, p, c => by
    intro x hx
    simp only [insertChildF, refsListF, List.mem_append] at hx
    simp only [refsListF, List.mem_append]
    rcases hx with hx | hx
    · rcases refs_insertChild_subset i p c x hx with h | h
      · tauto
      · tauto
    · rcases refsF_insertChildF_subset rest p c x hx with h | h
      · tauto
      · tauto

end

mutual

theorem find_insertChild_fresh : ∀ (i : Inst) (p tgt : Nat) (c : Inst),
    (Inst.refsList i).count p = 1 → tgt ∉ Inst.refsList i →
    (i.insertChild p c).find tgt = c.find tgt
  | .mk r nm cl pr cs, p, tgt, c => by
    intro h1 h2
    simp only [Inst.refsList, List.mem_cons, not_or] at h2
    by_cases hr : r = p
    · simp only [Inst.insertChild, if_pos hr, Inst.find]
      rw [if_neg (fun hh => h2.1 hh.symm)]
      rw [findF_append]
      rw [(findF_none_iff cs tgt).mpr h2.2]
      simp only [findF]
      cases c.find tgt <;> rfl
    · simp only [Inst.insertChild, if_neg hr, Inst.find]
      rw [if_neg (fun hh => h2.1 hh.symm)]
      apply findF_insertChildF_fresh
      · simp only [Inst.refsList] at h1
        rwa [List.count_cons_of_ne (fun hh => hr (by simpa using hh.symm))] at h1
      · exact h2.2

theorem findF_insertChildF_fresh : ∀ (l : List Inst) (p tgt : Nat) (c : Inst),
    (refsListF l).count p = 1 → tgt ∉ refsListF l →
    findF (insertChildF l p c) tgt = c.find tgt
  | [], p, tgt, c => by
    intro h1 _
    simp [refsListF] at h1
  | i :: rest, p, tgt, c => by
    intro h1 h2
    simp only [refsListF, List.count_append] at h1
    simp only [refsListF, List.mem_append, not_or] at h2
    simp only [insertChildF, findF]
    by_cases him : (Inst.refsList i).count p = 1
    · have hrest0 : (refsListF rest).count p = 0 := by omega
      rw [insertChildF_notMem rest p c (List.count_eq_zero.mp hrest0)]
      rw [find_insertChild_fresh i p tgt c him h2.1]
      cases hc : c.find tgt with
      | some x => rfl
      | none =>
        rw [(findF_none_iff rest tgt).mpr h2.2]
    · have him0 : (Inst.refsList i).count p = 0 := by omega
      have hrest : (refsListF rest).count p = 1 := by omega
      rw [insertChild_notMem i p c (List.count_eq_zero.mp him0)]
      rw [(find_none_iff i tgt).mpr h2.1]
      exact findF_insertChildF_fresh rest p tgt c hrest h2.2

end

mutual

theorem find_insertChild_preserve : ∀ (i : Inst) (x p : Nat) (c sub : Inst),
    i.find x = some sub → p ∉ Inst.refsList sub → x ∉ Inst.refsList c →
    (i.insertChild p c).find x = some sub
  | .mk r nm cl pr cs, x, p, c, sub => by
    intro hf hp hx
    simp only [Inst.find] at hf
    by_cases hr : r = x
    · rw [if_pos hr] at hf
      cases hf
      rw [insertChild_notMem _ p c hp]
      simp only [Inst.find]
      rw [if_pos hr]
    · rw [if_neg hr] at hf
      simp only [Inst.insertChild]
      by_cases hrp : r = p
      · rw [if_pos hrp]
        simp only [Inst.find]
        rw [if_neg hr]
        rw [findF_append, hf]
      · rw [if_neg hrp]
        simp only [Inst.find]
        rw [if_neg hr]
        exact findF_insertChildF_preserve cs x p c sub hf hp hx

theorem findF_insertChildF_preserve : ∀ (l : List Inst) (x p : Nat)
    (c sub : Inst), findF l x = some sub → p ∉ Inst.refsList sub →
    x ∉ Inst.refsList c →
    findF (insertChildF l p c) x = some sub
  | [], x, p, c, sub => by intro hf _ _; exact Option.noConfusion hf
  | i :: rest, x, p, c, sub => by
    intro hf hp hx
    simp only [findF] at hf
    simp only [insertChildF, findF]
    cases hi : i.find x with
    | some y =>
      rw [hi] at hf
      cases hf
      rw [find_insertChild_preserve i x p c sub hi hp hx]
    | none =>
      rw [hi] at hf
      have hnotc : x ∉ Inst.refsList (i.insertChild p c) := by
        intro hmem
        rcases refs_insertChild_subset i p c x hmem with h | h
        · exact absurd h ((find_none_iff i x).mp hi)
        · exact hx h
      rw [(find_none_iff _ x).mpr hnotc]
      exact findF_insertChildF_preserve rest x p c sub hf hp hx

end

/-!  ## Structural lemmas: destroy  -/

theorem Inst.referent_mem_refs (i : Inst) : i.referent ∈ Inst.refsList i := by
  cases i with
  | mk r nm cl pr cs => simp [Inst.referent, Inst.refsList]

theorem Inst.find_self (i : Inst) : i.find i.referent = some i := by
  cases i with
  | mk r nm cl pr cs => simp [Inst.referent, Inst.find]

mutual

theorem destroy_notMem : ∀ (i : Inst) (tgt : Nat),
    tgt ∉ Inst.refsList i → i.destroy tgt = i
  | .mk r nm cl pr cs, tgt => by
    intro h
    simp only [Inst.refsList, List.mem_cons, not_or] at h
    simp only [Inst.destroy]
    rw [destroyF_notMem cs tgt h.2]

theorem destroyF_notMem : ∀ (l : List Inst) (tgt : Nat),
    tgt ∉ refsListF l → destroyF l tgt = l
  | [], tgt => by intro _; rfl
  | i :: rest, tgt => by
    intro h
    simp only [refsListF, List.mem_append, not_or] at h
    simp only [destroyF]
    rw [if_neg (fun hh : i.referent = tgt => h.1 (hh ▸ Inst.referent_mem_refs i))]
    rw [destroy_notMem i tgt h.1, destroyF_notMem rest tgt h.2]

end

mutual

theorem refs_destroy_sublist : ∀ (i : Inst) (tgt : Nat),
    (Inst.refsList (i.destroy tgt)).Sublist (Inst.refsList i)
  | .mk r nm cl pr cs, tgt => by
    simp only [Inst.destroy, Inst.refsList]
    exact (refsF_destroyF_sublist cs tgt).cons₂ r

theorem refsF_destroyF_sublist : ∀ (l : List Inst) (tgt : Nat),
    (refsListF (destroyF l tgt)).Sublist (refsListF l)
  | [], tgt => by simp [destroyF, refsListF]
  | i :: rest, tgt => by
    simp only [destroyF]
    by_cases hr : i.referent = tgt
    · rw [if_pos hr]
      simp only [refsListF]
      exact (refsF_destroyF_sublist rest tgt).trans
        (List.sublist_append_right _ _)
    · rw [if_neg hr]
      simp only [refsListF]
      exact List.Sublist.append (refs_destroy_sublist i tgt)
        (refsF_destroyF_sublist rest tgt)

end

mutual

theorem refs_destroy_iff : ∀ (i : Inst) (tgt : Nat) (sub : Inst),
    (Inst.refsList i).Nodup → ¬ tgt = i.referent → i.find tgt = some sub →
    ∀ x, x ∈ Inst.refsList (i.destroy tgt) ↔
      (x ∈ Inst.refsList i ∧ x ∉ Inst.refsList sub)
  | .mk r nm cl pr cs, tgt, sub => by
    intro hnd htgt hf x
    simp only [Inst.referent] at htgt
    simp only [Inst.find] at hf
    rw [if_neg (fun hh => htgt hh.symm)] at hf
    simp only [Inst.refsList, List.nodup_cons] at hnd
    have hsubl := (findF_some_sub cs tgt sub hf).2
    simp only [Inst.destroy, Inst.refsList, List.mem_cons]
    by_cases hx : x = r
    · subst hx
      constructor
      · intro _
        exact ⟨Or.inl rfl, fun hmem => hnd.1 (hsubl.mem hmem)⟩
      · intro _
        exact Or.inl rfl
    · simp only [hx, false_or]
      rw [refsF_destroyF_iff cs tgt sub hnd.2 hf x]

theorem refsF_destroyF_iff : ∀ (l : List Inst) (tgt : Nat) (sub : Inst),
    (refsListF l).Nodup → findF l tgt = some sub →
    ∀ x, x ∈ refsListF (destroyF l tgt) ↔
      (x ∈ refsListF l ∧ x ∉ Inst.refsList sub)
  | [], tgt, sub => by intro _ hf; exact Option.noConfusion hf
  | i :: rest, tgt, sub => by
    intro hnd hf x
    simp only [refsListF, List.nodup_append] at hnd
    obtain ⟨hnd1, hnd2, hdisj⟩ := hnd
    simp only [findF] at hf
    simp only [destroyF]
    cases hi : i.find tgt with
    | some y =>
      rw [hi] at hf
      cases hf
      have htgtmem : tgt ∈ Inst.refsList i := by
        obtain ⟨h1, h2⟩ := find_some_sub i tgt sub hi
        exact h2.mem (h1 ▸ Inst.referent_mem_refs sub)
      have htgtrest : tgt ∉ refsListF rest := fun hh => hdisj htgtmem hh
      by_cases hr : i.referent = tgt
      · rw [if_pos hr]
        have hsubi : sub = i := by
          have hfi := Inst.find_self i
          rw [hr] at hfi
          exact Option.some.inj (hi.symm.trans hfi)
        subst hsubi
        rw [destroyF_notMem rest tgt htgtrest]
        simp only [refsListF, List.mem_append]
        constructor
        · intro hmem
          exact ⟨Or.inr hmem, fun hsub => hdisj hsub hmem⟩
        · intro ⟨hmem, hnsub⟩
          rcases hmem with hmem | hmem
          · exact absurd hmem hnsub
          · exact hmem
      · rw [if_neg hr]
        rw [destroyF_notMem rest tgt htgtrest]
        simp only [refsListF, List.mem_append]
        rw [refs_destroy_iff i tgt sub hnd1 (fun hh => hr hh.symm) hi x]
        have hsubl := (find_some_sub i tgt sub hi).2
        constructor
        · intro h
          rcases h with ⟨hmem, hnsub⟩ | hmem
          · exact ⟨Or.inl hmem, hnsub⟩
          · exact ⟨Or.inr hmem, fun hsub => hdisj (hsubl.mem hsub) hmem⟩
        · intro ⟨hmem, hnsub⟩
          rcases hmem with hmem | hmem
          · exact Or.inl ⟨hmem, hnsub⟩
          · exact Or.inr hmem
    | none =>
      rw [hi] at hf
      have hnoti : tgt ∉ Inst.refsList i := (find_none_iff i tgt).mp hi
      have hr : ¬ i.referent = tgt :=
        fun hh => hnoti (hh ▸ Inst.referent_mem_refs i)
      rw [if_neg hr]
      rw [destroy_notMem i tgt hnoti]
      simp only [refsListF, List.mem_append]
      rw [refsF_destroyF_iff rest tgt sub hnd2 hf x]
      have hsubl := (findF_some_sub rest tgt sub hf).2
      constructor
      · intro h
        rcases h with hmem | ⟨hmem, hnsub⟩
        · exact ⟨Or.inl hmem, fun hsub => hdisj hmem (hsubl.mem hsub)⟩
        · exact ⟨Or.inr hmem, hnsub⟩
      · intro ⟨hmem, hnsub⟩
        rcases hmem with hmem | hmem
        · exact Or.inl hmem
        · exact Or.inr ⟨hmem, hnsub⟩

end

/-!  ## Operation-level lemmas: inserting metadata for fresh handles  -/

theorem alistLookup_none_of_bound (m : List (Nat × InstanceMetadata))
    (bound r : Nat) (hb : ∀ e ∈ m, e.1 < bound) (hr : bound ≤ r) :
    alistLookup m r = none := by
  apply alistLookup_eq_none_of_not_key
  intro hm
  obtain ⟨e, hel, hek⟩ := List.mem_map.mp hm
  have := hb e hel
  omega

theorem snapSize_pos (s : InstanceSnapshot) : 0 < snapSize s := by
  cases s with
  | mk c nm pr md cs =>
    simp only [snapSize]
    omega

theorem pathAdds_nil (k : String) : pathAdds k [] = [] := rfl

theorem pathAdds_cons (k : String) (pr : Nat × InstanceMetadata)
    (rest : List (Nat × InstanceMetadata)) :
    pathAdds k (pr :: rest) =
      List.replicate (pr.2.relevant_paths.count k) pr.1 ++ pathAdds k rest := by
  simp [pathAdds]

theorem pathAdds_append (k : String) (a b : List (Nat × InstanceMetadata)) :
    pathAdds k (a ++ b) = pathAdds k a ++ pathAdds k b := by
  simp [pathAdds]

theorem specAdds_nil (q : String) : specAdds q [] = [] := rfl

theorem specAdds_cons (q : String) (pr : Nat × InstanceMetadata)
    (rest : List (Nat × InstanceMetadata)) :
    specAdds q (pr :: rest) =
      (if pr.2.specified_id = some q then [pr.1] else []) ++ specAdds q rest := by
  simp only [specAdds, List.filterMap_cons]
  by_cases h : pr.2.specified_id = some q
  · rw [if_pos h, if_pos h]
    rfl
  · rw [if_neg h, if_neg h]
    rfl

theorem specAdds_append (q : String) (a b : List (Nat × InstanceMetadata)) :
    specAdds q (a ++ b) = specAdds q a ++ specAdds q b := by
  simp [specAdds]

theorem set_specified_id_fresh (t : RojoTree) (id : Nat) (q : String)
    (h : alistLookup t.metadata_map id = none) :
    t.set_specified_id id q =
      { t with specified_id_to_refs := t.specified_id_to_refs.insert q id } := by
  unfold RojoTree.set_specified_id
  rw [h]

theorem not_key_of_alistLookup_none (m : List (Nat × InstanceMetadata))
    (r : Nat) (h : alistLookup m r = none) : r ∉ m.map Prod.fst := by
  induction m with
  | nil => simp
  | cons e rest ih =>
    rw [alistLookup_cons] at h
    by_cases he : e.1 = r
    · rw [if_pos he] at h
      exact Option.noConfusion h
    · rw [if_neg he] at h
      simp only [List.map_cons, List.mem_cons, not_or]
      exact ⟨fun hh => he hh.symm, ih h⟩

theorem insert_metadata_fresh_some (t : RojoTree) (id : Nat)
    (md : InstanceMetadata) (s : String) (hspec : md.specified_id = some s)
    (h : alistLookup t.metadata_map id = none) :
    t.insert_metadata id md = { t with
      path_to_ids :=
        md.relevant_paths.foldl (fun m p => m.insert p id) t.path_to_ids
      specified_id_to_refs := t.specified_id_to_refs.insert s id
      metadata_map := alistInsert t.metadata_map id md } := by
  unfold RojoTree.insert_metadata RojoTree.set_specified_id
  rw [hspec]
  simp only [h]

theorem insert_metadata_fresh_none (t : RojoTree) (id : Nat)
    (md : InstanceMetadata) (hspec : md.specified_id = none) :
    t.insert_metadata id md = { t with
      path_to_ids :=
        md.relevant_paths.foldl (fun m p => m.insert p id) t.path_to_ids
      metadata_map := alistInsert ({ t with
        path_to_ids :=
          md.relevant_paths.foldl (fun m p => m.insert p id) t.path_to_ids
        } : RojoTree).metadata_map id md } := by
  unfold RojoTree.insert_metadata
  rw [hspec]

theorem insert_metadata_spec (t : RojoTree) (id : Nat) (md : InstanceMetadata)
    (h : alistLookup t.metadata_map id = none) :
    (t.insert_metadata id md).inner = t.inner ∧
    (t.insert_metadata id md).metadata_map = t.metadata_map ++ [(id, md)] ∧
    (∀ k, (t.insert_metadata id md).path_to_ids.get k =
      t.path_to_ids.get k ++ List.replicate (md.relevant_paths.count k) id) ∧
    (∀ q, (t.insert_metadata id md).specified_id_to_refs.get q =
      t.specified_id_to_refs.get q ++
        (if md.specified_id = some q then [id] else [])) := by
  have hins : alistInsert t.metadata_map id md = t.metadata_map ++ [(id, md)] :=
    alistInsert_of_not_key _ _ _ (not_key_of_alistLookup_none _ _ h)
  cases hspec : md.specified_id with
  | none =>
    rw [insert_metadata_fresh_none t id md hspec]
    refine ⟨rfl, hins, ?_, ?_⟩
    · intro k
      exact get_foldl_insert _ _ _ _
    · intro q
      simp
  | some s =>
    rw [insert_metadata_fresh_some t id md s hspec h]
    refine ⟨rfl, hins, ?_, ?_⟩
    · intro k
      exact get_foldl_insert _ _ _ _
    · intro q
      by_cases hq : s = q
      · subst hq
        rw [if_pos rfl]
        exact MultiMap.get_insert_self _ _ _
      · rw [if_neg (fun hh => hq (Option.some.inj hh))]
        rw [MultiMap.get_insert_ne _ _ _ _ (fun hh => hq hh.symm)]
        simp

theorem insert_metadata_mmwf (t : RojoTree) (id : Nat) (md : InstanceMetadata)
    (h : alistLookup t.metadata_map id = none)
    (hwp : MMWF t.path_to_ids) (hws : MMWF t.specified_id_to_refs) :
    MMWF (t.insert_metadata id md).path_to_ids ∧
    MMWF (t.insert_metadata id md).specified_id_to_refs := by
  cases hspec : md.specified_id with
  | none =>
    rw [insert_metadata_fresh_none t id md hspec]
    exact ⟨mmwf_foldl_insert _ _ _ hwp, hws⟩
  | some s =>
    rw [insert_metadata_fresh_some t id md s hspec h]
    exact ⟨mmwf_foldl_insert _ _ _ hwp, MultiMap.mmwf_insert _ _ _ hws⟩

/-!  ## The characterization of insert_instance  -/

theorem insert_instance_eq (t : RojoTree) (parent : Nat) (c nm : String)
    (pr : Props) (md : InstanceMetadata) (cs : List InstanceSnapshot) :
    t.insert_instance parent (.mk c nm pr md cs) =
      (t.inner.nextRef,
        insertChildrenT
          (({ t with inner := ⟨t.inner.root.insertChild parent
               (Inst.mk t.inner.nextRef nm c
                 (propsInsertAll (propsInsertAll []
                   (legacyPivotShim c pr)) pr) []),
             t.inner.nextRef + 1⟩ } : RojoTree).insert_metadata
            t.inner.nextRef md)
          t.inner.nextRef cs) := by
  simp only [RojoTree.insert_instance, WeakDom.insert]

theorem nodup_append_range (l : List Nat) (n sz : Nat)
    (hnd : l.Nodup) (hdb : ∀ x ∈ l, x < n) :
    (l ++ List.range' n sz).Nodup := by
  rw [List.nodup_append]
  refine ⟨hnd, List.nodup_range' _ _, ?_⟩
  intro x hx hx2
  rw [List.mem_range'] at hx2
  obtain ⟨i, hi, hxi⟩ := hx2
  have := hdb x hx
  omega

theorem attach_perm (t : RojoTree) (parent : Nat) (built : Inst)
    (hnd : t.inner.root.refsList.Nodup)
    (hpm : parent ∈ t.inner.root.refsList) :
    List.Perm (Inst.refsList (t.inner.root.insertChild parent built))
      (t.inner.root.refsList ++ Inst.refsList built) :=
  refs_insertChild _ parent built (List.count_eq_one_of_mem hnd hpm)

mutual

theorem insert_instance_spec : ∀ (s : InstanceSnapshot) (t : RojoTree)
    (parent : Nat),
    t.inner.root.refsList.Nodup →
    (∀ x ∈ t.inner.root.refsList, x < t.inner.nextRef) →
    (∀ e ∈ t.metadata_map, e.1 < t.inner.nextRef) →
    parent ∈ t.inner.root.refsList →
    MMWF t.path_to_ids → MMWF t.specified_id_to_refs →
    (t.insert_instance parent s).1 = t.inner.nextRef ∧
    (t.insert_instance parent s).2.inner.nextRef =
      t.inner.nextRef + snapSize s ∧
    (t.insert_instance parent s).2.inner.root =
      t.inner.root.insertChild parent (buildInst t.inner.nextRef s).1 ∧
    (t.insert_instance parent s).2.metadata_map =
      t.metadata_map ++ (snapPairs t.inner.nextRef s).1 ∧
    (∀ k, (t.insert_instance parent s).2.path_to_ids.get k =
      t.path_to_ids.get k ++ pathAdds k (snapPairs t.inner.nextRef s).1) ∧
    (∀ q, (t.insert_instance parent s).2.specified_id_to_refs.get q =
      t.specified_id_to_refs.get q ++
        specAdds q (snapPairs t.inner.nextRef s).1) ∧
    MMWF (t.insert_instance parent s).2.path_to_ids ∧
    MMWF (t.insert_instance parent s).2.specified_id_to_refs
  | .mk c nm pr md cs, t, parent => by
    intro hnd hdb hmb hpm hwp hws
    rw [insert_instance_eq]
    set n := t.inner.nextRef with hn
    set node : Inst := Inst.mk n nm c
      (propsInsertAll (propsInsertAll [] (legacyPivotShim c pr)) pr) []
      with hnode
    set t1 : RojoTree :=
      { t with inner := ⟨t.inner.root.insertChild parent node, n + 1⟩ }
      with ht1
    have ht1meta : t1.metadata_map = t.metadata_map := rfl
    have ht1path : t1.path_to_ids = t.path_to_ids := rfl
    have ht1specm : t1.specified_id_to_refs = t.specified_id_to_refs := rfl
    have ht1root : t1.inner.root = t.inner.root.insertChild parent node := rfl
    have ht1next : t1.inner.nextRef = n + 1 := rfl
    have hlookup : alistLookup t1.metadata_map n = none := by
      rw [ht1meta]
      exact alistLookup_none_of_bound _ n _ hmb (Nat.le_refl n)
    obtain ⟨hin2, hmeta2, hpath2, hspec2⟩ := insert_metadata_spec t1 n md hlookup
    obtain ⟨hwp2, hws2⟩ := insert_metadata_mmwf t1 n md hlookup hwp hws
    set t2 : RojoTree := t1.insert_metadata n md with ht2
    have hrefsnode : Inst.refsList node = [n] := by
      rw [hnode]
      simp [Inst.refsList, refsListF]
    have ht2root : t2.inner.root = t.inner.root.insertChild parent node := by
      rw [hin2, ht1root]
    have ht2next : t2.inner.nextRef = n + 1 := by
      rw [hin2, ht1next]
    have hperm2 : List.Perm t2.inner.root.refsList
        (t.inner.root.refsList ++ [n]) := by
      rw [ht2root]
      have := attach_perm t parent node hnd hpm
      rwa [hrefsnode] at this
    have hnd2 : t2.inner.root.refsList.Nodup := by
      rw [hperm2.nodup_iff]
      have : [n] = List.range' n 1 := by simp
      rw [this]
      exact nodup_append_range _ _ _ hnd (by intro x hx; exact hdb x hx)
    have hdb2 : ∀ x ∈ t2.inner.root.refsList, x < t2.inner.nextRef := by
      intro x hx
      rw [ht2next]
      rcases (List.mem_append.mp (hperm2.mem_iff.mp hx)) with h | h
      · have := hdb x h
        omega
      · rw [List.mem_singleton] at h
        omega
    have hmb2 : ∀ e ∈ t2.metadata_map, e.1 < t2.inner.nextRef := by
      intro e he
      rw [ht2next]
      rw [hmeta2, ht1meta] at he
      rcases List.mem_append.mp he with h | h
      · have := hmb e h
        omega
      · rw [List.mem_singleton] at h
        subst h
        omega
    have hpm2 : n ∈ t2.inner.root.refsList := by
      rw [hperm2.mem_iff]
      simp
    obtain ⟨g2, g3, g4, g5, g6, g7, g8⟩ :=
      insertChildrenT_spec cs t2 n hnd2 hdb2 hmb2 hpm2 hwp2 hws2
    rw [ht2next] at g2 g3 g4 g5 g6
    refine ⟨rfl, ?_, ?_, ?_, ?_, ?_, g7, g8⟩
    · show (insertChildrenT t2 n cs).inner.nextRef = n + snapSize (.mk c nm pr md cs)
      rw [g2]
      simp only [snapSize]
      omega
    · show (insertChildrenT t2 n cs).inner.root = _
      rw [g3, ht2root]
      rw [insertList_attached _ _ _ _ _ (fun hmem => by
        have := hdb n hmem
        omega)]
      rw [hnode]
      rw [insertList_mk_self]
      simp only [buildInst, List.nil_append]
    · show (insertChildrenT t2 n cs).metadata_map = _
      rw [g4, hmeta2, ht1meta]
      simp only [snapPairs, List.append_assoc]
      rfl
    · intro k
      show (insertChildrenT t2 n cs).path_to_ids.get k = _
      rw [g5 k, hpath2 k, ht1path]
      simp only [snapPairs]
      rw [pathAdds_cons]
      simp only [List.append_assoc]
    · intro q
      show (insertChildrenT t2 n cs).specified_id_to_refs.get q = _
      rw [g6 q, hspec2 q, ht1specm]
      simp only [snapPairs]
      rw [specAdds_cons]
      simp only [List.append_assoc]

theorem insertChildrenT_spec : ∀ (cs : List InstanceSnapshot) (t : RojoTree)
    (parent : Nat),
    t.inner.root.refsList.Nodup →
    (∀ x ∈ t.inner.root.refsList, x < t.inner.nextRef) →
    (∀ e ∈ t.metadata_map, e.1 < t.inner.nextRef) →
    parent ∈ t.inner.root.refsList →
    MMWF t.path_to_ids → MMWF t.specified_id_to_refs →
    (insertChildrenT t parent cs).inner.nextRef =
      t.inner.nextRef + snapSizeF cs ∧
    (insertChildrenT t parent cs).inner.root =
      t.inner.root.insertList parent (buildF t.inner.nextRef cs).1 ∧
    (insertChildrenT t parent cs).metadata_map =
      t.metadata_map ++ (snapPairsF t.inner.nextRef cs).1 ∧
    (∀ k, (insertChildrenT t parent cs).path_to_ids.get k =
      t.path_to_ids.get k ++ pathAdds k (snapPairsF t.inner.nextRef cs).1) ∧
    (∀ q, (insertChildrenT t parent cs).specified_id_to_refs.get q =
      t.specified_id_to_refs.get q ++
        specAdds q (snapPairsF t.inner.nextRef cs).1) ∧
    MMWF (insertChildrenT t parent cs).path_to_ids ∧
    MMWF (insertChildrenT t parent cs).specified_id_to_refs
  | [], t, parent => by
    intro _ _ _ _ hwp hws
    simp only [insertChildrenT, snapSizeF, buildF, snapPairsF]
    refine ⟨by omega, rfl, by simp, ?_, ?_, hwp, hws⟩
    · intro k
      simp [pathAdds_nil]
    · intro q
      simp [specAdds_nil]
  | s :: rest, t, parent => by
    intro hnd hdb hmb hpm hwp hws
    obtain ⟨h1, h2, h3, h4, h5, h6, h7, h8⟩ :=
      insert_instance_spec s t parent hnd hdb hmb hpm hwp hws
    set n := t.inner.nextRef with hn
    set t' : RojoTree := (t.insert_instance parent s).2 with ht'
    have hbrefs : Inst.refsList (buildInst n s).1 = List.range' n (snapSize s) := by
      rw [refsList_build, snapPairs_keys]
    have hperm : List.Perm t'.inner.root.refsList
        (t.inner.root.refsList ++ List.range' n (snapSize s)) := by
      rw [h3]
      have := attach_perm t parent (buildInst n s).1 hnd hpm
      rwa [hbrefs] at this
    have hnd' : t'.inner.root.refsList.Nodup := by
      rw [hperm.nodup_iff]
      exact nodup_append_range _ _ _ hnd (fun x hx => hdb x hx)
    have hdb' : ∀ x ∈ t'.inner.root.refsList, x < t'.inner.nextRef := by
      intro x hx
      rw [h2]
      rcases List.mem_append.mp (hperm.mem_iff.mp hx) with h | h
      · have := hdb x h
        have := snapSize_pos s
        omega
      · rw [List.mem_range'] at h
        obtain ⟨i, hi, hxi⟩ := h
        omega
    have hmb' : ∀ e ∈ t'.metadata_map, e.1 < t'.inner.nextRef := by
      intro e he
      rw [h2]
      rw [h4] at he
      rcases List.mem_append.mp he with h | h
      · have := hmb e h
        have := snapSize_pos s
        omega
      · have hk : e.1 ∈ ((snapPairs n s).1).map Prod.fst :=
          List.mem_map.mpr ⟨e, h, rfl⟩
        have := snapPairs_keys_mem hk
        omega
    have hpm' : parent ∈ t'.inner.root.refsList := by
      rw [hperm.mem_iff]
      exact List.mem_append.mpr (Or.inl hpm)
    obtain ⟨g2, g3, g4, g5, g6, g7, g8⟩ :=
      insertChildrenT_spec rest t' parent hnd' hdb' hmb' hpm' h7 h8
    have hnr' : t'.inner.nextRef = n + snapSize s := h2
    rw [hnr'] at g2 g3 g4 g5 g6
    have hstep : insertChildrenT t parent (s :: rest) =
        insertChildrenT t' parent rest := rfl
    rw [hstep]
    refine ⟨?_, ?_, ?_, ?_, ?_, g7, g8⟩
    · rw [g2]
      simp only [snapSizeF]
      omega
    · rw [g3, h3]
      simp only [buildF]
      rw [buildInst_snd]
      rfl
    · rw [g4, h4]
      simp only [snapPairsF]
      rw [snapPairs_snd]
      simp [List.append_assoc]
    · intro k
      rw [g5 k, h5 k]
      simp only [snapPairsF]
      rw [snapPairs_snd, pathAdds_append]
      simp [List.append_assoc]
    · intro q
      rw [g6 q, h6 q]
      simp only [snapPairsF]
      rw [snapPairs_snd, specAdds_append]
      simp [List.append_assoc]

end

/-!  ## Characterization of tree construction  -/

theorem new_eq (c nm : String) (pr : Props) (md : InstanceMetadata)
    (cs : List InstanceSnapshot) :
    RojoTree.new (.mk c nm pr md cs) =
      insertChildrenT
        ((⟨⟨Inst.mk 0 nm c (propsInsertAll [] pr) [], 1⟩, [],
          MultiMap.empty, MultiMap.empty⟩ : RojoTree).insert_metadata 0 md)
        0 cs := by
  simp only [RojoTree.new]

theorem alistLookup_none_iff (m : List (Nat × InstanceMetadata)) (r : Nat) :
    alistLookup m r = none ↔ r ∉ m.map Prod.fst :=
  ⟨not_key_of_alistLookup_none m r, alistLookup_eq_none_of_not_key m r⟩

theorem alistLookup_isSome_iff (m : List (Nat × InstanceMetadata)) (r : Nat) :
    (alistLookup m r).isSome = true ↔ r ∈ m.map Prod.fst := by
  constructor
  · intro h
    by_contra hc
    rw [alistLookup_eq_none_of_not_key m r hc] at h
    simp at h
  · intro h
    by_contra hc
    have hnone : alistLookup m r = none := by
      cases hh : alistLookup m r with
      | none => rfl
      | some md =>
        rw [hh] at hc
        simp at hc
    exact not_key_of_alistLookup_none m r hnone h

theorem mem_pathAdds (k : String) (pairs : List (Nat × InstanceMetadata))
    (x : Nat) (h : x ∈ pathAdds k pairs) : x ∈ pairs.map Prod.fst := by
  simp only [pathAdds, List.mem_flatMap] at h
  obtain ⟨pr, hpr, hx⟩ := h
  rw [List.eq_of_mem_replicate hx]
  exact List.mem_map.mpr ⟨pr, hpr, rfl⟩

theorem mem_specAdds (q : String) (pairs : List (Nat × InstanceMetadata))
    (x : Nat) (h : x ∈ specAdds q pairs) : x ∈ pairs.map Prod.fst := by
  simp only [specAdds, List.mem_filterMap] at h
  obtain ⟨pr, hpr, hx⟩ := h
  by_cases hs : pr.2.specified_id = some q
  · rw [if_pos hs] at hx
    cases hx
    exact List.mem_map.mpr ⟨pr, hpr, rfl⟩
  · rw [if_neg hs] at hx
    exact Option.noConfusion hx

theorem count_pathAdds (k : String) (pairs : List (Nat × InstanceMetadata))
    (id : Nat) (hnd : (pairs.map Prod.fst).Nodup) :
    (pathAdds k pairs).count id =
      (match alistLookup pairs id with
       | some md => md.relevant_paths.count k
       | none => 0) := by
  induction pairs with
  | nil => simp [pathAdds_nil, alistLookup]
  | cons pr rest ih =>
    simp only [List.map_cons, List.nodup_cons] at hnd
    rw [pathAdds_cons, List.count_append, alistLookup_cons]
    by_cases hid : pr.1 = id
    · have hbeq : (pr.1 == id) = true := by simpa using hid
      have hrest0 : (pathAdds k rest).count id = 0 := by
        rw [List.count_eq_zero]
        intro hmem
        exact hnd.1 (hid ▸ mem_pathAdds k rest id hmem)
      rw [hrest0, List.count_replicate, hbeq, if_pos hid]
      simp
    · have hbeq : (pr.1 == id) = false := by simpa using hid
      rw [List.count_replicate, hbeq, if_neg hid, ih hnd.2]
      simp

theorem count_specAdds (q : String) (pairs : List (Nat × InstanceMetadata))
    (id : Nat) (hnd : (pairs.map Prod.fst).Nodup) :
    (specAdds q pairs).count id =
      (match alistLookup pairs id with
       | some md => if md.specified_id = some q then 1 else 0
       | none => 0) := by
  induction pairs with
  | nil => simp [specAdds_nil, alistLookup]
  | cons pr rest ih =>
    simp only [List.map_cons, List.nodup_cons] at hnd
    rw [specAdds_cons, List.count_append, alistLookup_cons]
    by_cases hid : pr.1 = id
    · have hrest0 : (specAdds q rest).count id = 0 := by
        rw [List.count_eq_zero]
        intro hmem
        exact hnd.1 (hid ▸ mem_specAdds q rest id hmem)
      rw [hrest0, if_pos hid]
      show (if pr.2.specified_id = some q then [pr.1] else []).count id + 0 =
        (if pr.2.specified_id = some q then 1 else 0)
      by_cases hs : pr.2.specified_id = some q
      · rw [if_pos hs, if_pos hs]
        simp [hid]
      · rw [if_neg hs, if_neg hs]
        simp
    · rw [if_neg hid, ih hnd.2]
      by_cases hs : pr.2.specified_id = some q
      · rw [if_pos hs]
        have : (pr.1 == id) = false := by simpa using hid
        simp [List.count_cons, this]
      · rw [if_neg hs]
        simp

theorem new_spec (s : InstanceSnapshot) :
    (RojoTree.new s).inner.nextRef = snapSize s ∧
    Inst.refsList (RojoTree.new s).inner.root = List.range' 0 (snapSize s) ∧
    (RojoTree.new s).metadata_map = (snapPairs 0 s).1 ∧
    (∀ k, (RojoTree.new s).path_to_ids.get k = pathAdds k (snapPairs 0 s).1) ∧
    (∀ q, (RojoTree.new s).specified_id_to_refs.get q =
      specAdds q (snapPairs 0 s).1) ∧
    MMWF (RojoTree.new s).path_to_ids ∧
    MMWF (RojoTree.new s).specified_id_to_refs := by
  cases s with
  | mk c nm pr md cs =>
    rw [new_eq]
    set t0 : RojoTree := ⟨⟨Inst.mk 0 nm c (propsInsertAll [] pr) [], 1⟩, [],
      MultiMap.empty, MultiMap.empty⟩ with ht0
    have hlookup : alistLookup t0.metadata_map 0 = none := rfl
    obtain ⟨hin1, hmeta1, hpath1, hspec1⟩ := insert_metadata_spec t0 0 md hlookup
    obtain ⟨hwp1, hws1⟩ := insert_metadata_mmwf t0 0 md hlookup
      MultiMap.mmwf_empty MultiMap.mmwf_empty
    set t1 : RojoTree := t0.insert_metadata 0 md with ht1
    have ht1root : t1.inner.root = Inst.mk 0 nm c (propsInsertAll [] pr) [] := by
      rw [hin1]
    have ht1refs : t1.inner.root.refsList = [0] := by
      rw [ht1root]
      simp [Inst.refsList, refsListF]
    have ht1next : t1.inner.nextRef = 1 := by
      rw [hin1]
    have hnd1 : t1.inner.root.refsList.Nodup := by
      rw [ht1refs]
      simp
    have hdb1 : ∀ x ∈ t1.inner.root.refsList, x < t1.inner.nextRef := by
      intro x hx
      rw [ht1refs] at hx
      rw [List.mem_singleton] at hx
      rw [ht1next]
      omega
    have hmb1 : ∀ e ∈ t1.metadata_map, e.1 < t1.inner.nextRef := by
      intro e he
      rw [hmeta1] at he
      simp only [List.nil_append, List.mem_singleton] at he
      rw [ht1next, he]
      omega
    have hpm1 : (0 : Nat) ∈ t1.inner.root.refsList := by
      rw [ht1refs]
      simp
    obtain ⟨g2, g3, g4, g5, g6, g7, g8⟩ :=
      insertChildrenT_spec cs t1 0 hnd1 hdb1 hmb1 hpm1 hwp1 hws1
    rw [ht1next] at g2 g3 g4 g5 g6
    refine ⟨?_, ?_, ?_, ?_, ?_, g7, g8⟩
    · rw [g2]
      simp only [snapSize]
    · rw [g3, ht1root, insertList_mk_self]
      simp only [List.nil_append, Inst.refsList]
      rw [refsListF_build, snapPairsF_keys]
      simp only [snapSize]
      rw [show 1 + snapSizeF cs = snapSizeF cs + 1 from Nat.add_comm _ _]
      rw [List.range'_succ]
    · rw [g4, hmeta1]
      simp only [List.nil_append, snapPairs]
      rfl
    · intro k
      rw [g5 k, hpath1 k]
      show MultiMap.empty.get k ++ _ ++ _ = _
      rw [MultiMap.get_empty]
      simp only [List.nil_append, snapPairs]
      rw [pathAdds_cons]
    · intro q
      rw [g6 q, hspec1 q]
      show MultiMap.empty.get q ++ _ ++ _ = _
      rw [MultiMap.get_empty]
      simp only [List.nil_append, snapPairs]
      rw [specAdds_cons]

/-!  ## Characterization of metadata removal and subtree removal  -/

theorem remove_metadata_none_eq (t : RojoTree) (id : Nat)
    (hl : alistLookup t.metadata_map id = none) : t.remove_metadata id = t := by
  unfold RojoTree.remove_metadata
  rw [hl]

theorem remove_metadata_some_some_eq (t : RojoTree) (id : Nat)
    (md : InstanceMetadata) (sq : String)
    (hl : alistLookup t.metadata_map id = some md)
    (hs : md.specified_id = some sq) :
    t.remove_metadata id = { t with
      metadata_map := alistErase t.metadata_map id
      specified_id_to_refs := t.specified_id_to_refs.remove sq id
      path_to_ids :=
        md.relevant_paths.foldl (fun m p => m.remove p id) t.path_to_ids } := by
  unfold RojoTree.remove_metadata
  rw [hl]
  simp only [hs]

theorem remove_metadata_some_none_eq (t : RojoTree) (id : Nat)
    (md : InstanceMetadata)
    (hl : alistLookup t.metadata_map id = some md)
    (hs : md.specified_id = none) :
    t.remove_metadata id = { t with
      metadata_map := alistErase t.metadata_map id
      path_to_ids :=
        md.relevant_paths.foldl (fun m p => m.remove p id) t.path_to_ids } := by
  unfold RojoTree.remove_metadata
  rw [hl]
  simp only [hs]

theorem remove_metadata_spec (t : RojoTree) (id : Nat)
    (hwp : MMWF t.path_to_ids) (hws : MMWF t.specified_id_to_refs) :
    (t.remove_metadata id).inner = t.inner ∧
    (∀ x, alistLookup (t.remove_metadata id).metadata_map x =
      if x = id then none else alistLookup t.metadata_map x) ∧
    (∀ k, (t.remove_metadata id).path_to_ids.get k =
      (List.replicate
        (match alistLookup t.metadata_map id with
         | some md => md.relevant_paths.count k
         | none => 0) id).foldl List.erase (t.path_to_ids.get k)) ∧
    (∀ q, (t.remove_metadata id).specified_id_to_refs.get q =
      ((match alistLookup t.metadata_map id with
        | some md => if md.specified_id = some q then [id] else []
        | none => []) : List Nat).foldl List.erase
        (t.specified_id_to_refs.get q)) ∧
    MMWF (t.remove_metadata id).path_to_ids ∧
    MMWF (t.remove_metadata id).specified_id_to_refs := by
  cases hl : alistLookup t.metadata_map id with
  | none =>
    rw [remove_metadata_none_eq t id hl]
    refine ⟨rfl, ?_, ?_, ?_, hwp, hws⟩
    · intro x
      by_cases hx : x = id
      · rw [if_pos hx, hx, hl]
      · rw [if_neg hx]
    · intro k
      simp
    · intro q
      simp
  | some md =>
    have hmeta : ∀ x, alistLookup (alistErase t.metadata_map id) x =
        if x = id then none else alistLookup t.metadata_map x := by
      intro x
      by_cases hx : x = id
      · rw [if_pos hx, hx]
        exact alistLookup_erase_self _ _
      · rw [if_neg hx]
        exact alistLookup_erase_ne _ _ _ hx
    cases hs : md.specified_id with
    | none =>
      rw [remove_metadata_some_none_eq t id md hl hs]
      refine ⟨rfl, hmeta, ?_, ?_, ?_, hws⟩
      · intro k
        exact get_foldl_remove _ _ _ _ hwp
      · intro q
        simp only [hs]
        simp
      · exact mmwf_foldl_remove _ _ _ hwp
    | some sq =>
      rw [remove_metadata_some_some_eq t id md sq hl hs]
      refine ⟨rfl, hmeta, ?_, ?_, ?_, ?_⟩
      · intro k
        exact get_foldl_remove _ _ _ _ hwp
      · intro q
        simp only [hs]
        by_cases hq : sq = q
        · subst hq
          rw [if_pos rfl]
          simp only [List.foldl_cons, List.foldl_nil]
          exact MultiMap.get_remove_self _ _ _ hws
        · rw [if_neg (fun hh => hq (Option.some.inj hh))]
          simp only [List.foldl_nil]
          exact MultiMap.get_remove_ne _ _ _ _ (fun hh => hq hh.symm)
      · exact mmwf_foldl_remove _ _ _ hwp
      · exact MultiMap.mmwf_remove _ _ _ hws

theorem removedPathIds_congr (t t' : RojoTree) (k : String) (rs : List Nat)
    (h : ∀ x ∈ rs, alistLookup t'.metadata_map x = alistLookup t.metadata_map x) :
    removedPathIds t' k rs = removedPathIds t k rs := by
  unfold removedPathIds
  induction rs with
  | nil => rfl
  | cons r rest ih =>
    simp only [List.flatMap_cons]
    rw [h r (List.mem_cons_self r rest)]
    rw [ih (fun x hx => h x (List.mem_cons_of_mem r hx))]

theorem removedSpecIds_congr (t t' : RojoTree) (q : String) (rs : List Nat)
    (h : ∀ x ∈ rs, alistLookup t'.metadata_map x = alistLookup t.metadata_map x) :
    removedSpecIds t' q rs = removedSpecIds t q rs := by
  unfold removedSpecIds
  induction rs with
  | nil => rfl
  | cons r rest ih =>
    simp only [List.filterMap_cons]
    rw [h r (List.mem_cons_self r rest)]
    rw [ih (fun x hx => h x (List.mem_cons_of_mem r hx))]

theorem removedPathIds_cons (t : RojoTree) (k : String) (r : Nat)
    (rest : List Nat) :
    removedPathIds t k (r :: rest) =
      (List.replicate
        (match alistLookup t.metadata_map r with
         | some md => md.relevant_paths.count k
         | none => 0) r) ++ removedPathIds t k rest := by
  unfold removedPathIds
  simp only [List.flatMap_cons]
  cases alistLookup t.metadata_map r with
  | none => simp
  | some md => simp

theorem removedSpecIds_cons (t : RojoTree) (q : String) (r : Nat)
    (rest : List Nat) :
    removedSpecIds t q (r :: rest) =
      ((match alistLookup t.metadata_map r with
        | some md => if md.specified_id = some q then [r] else []
        | none => []) : List Nat) ++ removedSpecIds t q rest := by
  unfold removedSpecIds
  simp only [List.filterMap_cons]
  cases alistLookup t.metadata_map r with
  | none => simp
  | some md =>
    by_cases hs : md.specified_id = some q
    · simp [hs]
    · simp [hs]

theorem foldl_remove_metadata_spec (rs : List Nat) :
    ∀ (t : RojoTree), rs.Nodup → MMWF t.path_to_ids →
      MMWF t.specified_id_to_refs →
    (rs.foldl (fun acc r => acc.remove_metadata r) t).inner = t.inner ∧
    (∀ x, alistLookup
        (rs.foldl (fun acc r => acc.remove_metadata r) t).metadata_map x =
      if x ∈ rs then none else alistLookup t.metadata_map x) ∧
    (∀ k, (rs.foldl (fun acc r => acc.remove_metadata r) t).path_to_ids.get k =
      (removedPathIds t k rs).foldl List.erase (t.path_to_ids.get k)) ∧
    (∀ q, (rs.foldl (fun acc r =>
        acc.remove_metadata r) t).specified_id_to_refs.get q =
      (removedSpecIds t q rs).foldl List.erase
        (t.specified_id_to_refs.get q)) ∧
    MMWF (rs.foldl (fun acc r => acc.remove_metadata r) t).path_to_ids ∧
    MMWF (rs.foldl (fun acc r =>
      acc.remove_metadata r) t).specified_id_to_refs := by
  induction rs with
  | nil =>
    intro t _ hwp hws
    refine ⟨rfl, ?_, ?_, ?_, hwp, hws⟩
    · intro x
      simp
    · intro k
      simp [removedPathIds]
    · intro q
      simp [removedSpecIds]
  | cons r rest ih =>
    intro t hnd hwp hws
    rw [List.nodup_cons] at hnd
    obtain ⟨m1, m2, m3, m4, m5, m6⟩ := remove_metadata_spec t r hwp hws
    obtain ⟨f1, f2, f3, f4, f5, f6⟩ := ih (t.remove_metadata r) hnd.2 m5 m6
    have hcongr : ∀ x ∈ rest,
        alistLookup (t.remove_metadata r).metadata_map x =
          alistLookup t.metadata_map x := by
      intro x hx
      rw [m2 x, if_neg (fun hh : x = r => hnd.1 (hh ▸ hx))]
    simp only [List.foldl_cons]
    refine ⟨?_, ?_, ?_, ?_, f5, f6⟩
    · rw [f1, m1]
    · intro x
      rw [f2 x]
      by_cases hx : x ∈ rest
      · rw [if_pos hx, if_pos (List.mem_cons_of_mem r hx)]
      · rw [if_neg hx, m2 x]
        by_cases hxr : x = r
        · rw [if_pos hxr, if_pos (by rw [hxr]; exact List.mem_cons_self r rest)]
        · rw [if_neg hxr,
            if_neg (by
              rw [List.mem_cons]
              push_neg
              exact ⟨hxr, hx⟩)]
    · intro k
      rw [f3 k]
      rw [removedPathIds_congr t (t.remove_metadata r) k rest hcongr]
      rw [m3 k]
      rw [removedPathIds_cons, List.foldl_append]
    · intro q
      rw [f4 q]
      rw [removedSpecIds_congr t (t.remove_metadata r) q rest hcongr]
      rw [m4 q]
      rw [removedSpecIds_cons, List.foldl_append]

theorem remove_eq_some (t : RojoTree) (id : Nat) (sub : Inst)
    (hf : t.inner.root.find id = some sub) :
    t.remove id =
      { (bfsRefs [sub]).foldl (fun acc r => acc.remove_metadata r) t with
        inner := ((bfsRefs [sub]).foldl
          (fun acc r => acc.remove_metadata r) t).inner.destroy id } := by
  unfold RojoTree.remove
  rw [hf]

theorem remove_spec (t : RojoTree) (id : Nat) (sub : Inst)
    (hf : t.inner.root.find id = some sub)
    (hnd : t.inner.root.refsList.Nodup)
    (hwp : MMWF t.path_to_ids) (hws : MMWF t.specified_id_to_refs) :
    (t.remove id).inner.nextRef = t.inner.nextRef ∧
    (t.remove id).inner.root = t.inner.root.destroy id ∧
    (∀ x, alistLookup (t.remove id).metadata_map x =
      if x ∈ Inst.refsList sub then none else alistLookup t.metadata_map x) ∧
    (∀ k, (t.remove id).path_to_ids.get k =
      (removedPathIds t k (bfsRefs [sub])).foldl List.erase
        (t.path_to_ids.get k)) ∧
    (∀ q, (t.remove id).specified_id_to_refs.get q =
      (removedSpecIds t q (bfsRefs [sub])).foldl List.erase
        (t.specified_id_to_refs.get q)) ∧
    MMWF (t.remove id).path_to_ids ∧
    MMWF (t.remove id).specified_id_to_refs := by
  have hperm : List.Perm (bfsRefs [sub]) (Inst.refsList sub) := by
    have h := bfsRefs_perm [sub]
    simpa [refsListF] using h
  have hndsub : (Inst.refsList sub).Nodup :=
    ((find_some_sub _ _ _ hf).2).nodup hnd
  have hndbfs : (bfsRefs [sub]).Nodup := (hperm.nodup_iff).mpr hndsub
  obtain ⟨f1, f2, f3, f4, f5, f6⟩ :=
    foldl_remove_metadata_spec (bfsRefs [sub]) t hndbfs hwp hws
  rw [remove_eq_some t id sub hf]
  set tF := (bfsRefs [sub]).foldl (fun acc r => acc.remove_metadata r) t
    with htF
  refine ⟨?_, ?_, ?_, f3, f4, f5, f6⟩
  · show (tF.inner.destroy id).nextRef = t.inner.nextRef
    rw [show (tF.inner.destroy id).nextRef = tF.inner.nextRef from rfl, f1]
  · show (tF.inner.destroy id).root = t.inner.root.destroy id
    rw [show (tF.inner.destroy id).root = tF.inner.root.destroy id from rfl, f1]
  · intro x
    rw [f2 x]
    by_cases hx : x ∈ Inst.refsList sub
    · rw [if_pos (hperm.mem_iff.mpr hx), if_pos hx]
    · rw [if_neg (fun hh => hx (hperm.mem_iff.mp hh)), if_neg hx]

theorem count_removedPathIds (t : RojoTree) (k : String) (rs : List Nat)
    (x : Nat) (hnd : rs.Nodup) :
    (removedPathIds t k rs).count x =
      if x ∈ rs then
        (match alistLookup t.metadata_map x with
         | some md => md.relevant_paths.count k
         | none => 0)
      else 0 := by
  induction rs with
  | nil => simp [removedPathIds]
  | cons r rest ih =>
    rw [List.nodup_cons] at hnd
    rw [removedPathIds_cons, List.count_append, ih hnd.2]
    by_cases hxr : x = r
    · subst hxr
      rw [if_neg hnd.1, if_pos (List.mem_cons_self x rest)]
      rw [List.count_replicate]
      simp
    · have hbeq : (r == x) = false := by
        simp only [beq_eq_false_iff_ne, ne_eq]
        exact fun hh => hxr hh.symm
      rw [List.count_replicate, hbeq]
      by_cases hx : x ∈ rest
      · rw [if_pos hx,
          if_pos (show x ∈ r :: rest from List.mem_cons_of_mem r hx)]
        simp
      · rw [if_neg hx,
          if_neg (show ¬ x ∈ r :: rest by
            rw [List.mem_cons]
            push_neg
            exact ⟨hxr, hx⟩)]
        simp

theorem count_removedSpecIds (t : RojoTree) (q : String) (rs : List Nat)
    (x : Nat) (hnd : rs.Nodup) :
    (removedSpecIds t q rs).count x =
      if x ∈ rs then
        (match alistLookup t.metadata_map x with
         | some md => if md.specified_id = some q then 1 else 0
         | none => 0)
      else 0 := by
  induction rs with
  | nil => simp [removedSpecIds]
  | cons r rest ih =>
    rw [List.nodup_cons] at hnd
    rw [removedSpecIds_cons, List.count_append, ih hnd.2]
    by_cases hxr : x = r
    · subst hxr
      rw [if_neg hnd.1, if_pos (List.mem_cons_self x rest)]
      cases alistLookup t.metadata_map x with
      | none => simp
      | some md =>
        by_cases hs : md.specified_id = some q
        · simp [hs]
        · simp [hs]
    · by_cases hx : x ∈ rest
      · rw [if_pos hx,
          if_pos (show x ∈ r :: rest from List.mem_cons_of_mem r hx)]
        have hcnt : ((match alistLookup t.metadata_map r with
            | some md => if md.specified_id = some q then [r] else []
            | none => []) : List Nat).count x = 0 := by
          rw [List.count_eq_zero]
          intro hmem
          cases hl : alistLookup t.metadata_map r with
          | none =>
            rw [hl] at hmem
            simp at hmem
          | some md =>
            rw [hl] at hmem
            by_cases hs : md.specified_id = some q
            · simp [hs] at hmem
              try exact hxr hmem
            · simp [hs] at hmem
        rw [hcnt]
        omega
      · rw [if_neg hx,
          if_neg (show ¬ x ∈ r :: rest by
            rw [List.mem_cons]
            push_neg
            exact ⟨hxr, hx⟩)]
        have hcnt : ((match alistLookup t.metadata_map r with
            | some md => if md.specified_id = some q then [r] else []
            | none => []) : List Nat).count x = 0 := by
          rw [List.count_eq_zero]
          intro hmem
          cases hl : alistLookup t.metadata_map r with
          | none =>
            rw [hl] at hmem
            simp at hmem
          | some md =>
            rw [hl] at hmem
            by_cases hs : md.specified_id = some q
            · simp [hs] at hmem
              try exact hxr hmem
            · simp [hs] at hmem
        rw [hcnt]


/-!  ## Characterization of metadata update  -/

theorem update_metadata_eq_some (t : RojoTree) (id : Nat)
    (md_old md' : InstanceMetadata)
    (hl : alistLookup t.metadata_map id = some md_old) :
    t.update_metadata id md' = t.updateMetadataExisting id md_old md' := by
  unfold RojoTree.update_metadata
  rw [hl]

theorem update_metadata_eq_none (t : RojoTree) (id : Nat)
    (md' : InstanceMetadata)
    (hl : alistLookup t.metadata_map id = none) :
    t.update_metadata id md' =
      { t with metadata_map := alistInsert t.metadata_map id md' } := by
  unfold RojoTree.update_metadata
  rw [hl]

theorem updateMetadataExisting_inner (t : RojoTree) (id : Nat)
    (md_old md' : InstanceMetadata) :
    (t.updateMetadataExisting id md_old md').inner = t.inner := by
  unfold RojoTree.updateMetadataExisting
  repeat' split
  all_goals rfl

theorem updateMetadataExisting_map (t : RojoTree) (id : Nat)
    (md_old md' : InstanceMetadata) :
    (t.updateMetadataExisting id md_old md').metadata_map =
      alistInsert t.metadata_map id md' := by
  unfold RojoTree.updateMetadataExisting
  repeat' split
  all_goals rfl

theorem updateMetadataExisting_path (t : RojoTree) (id : Nat)
    (md_old md' : InstanceMetadata) (hwp : MMWF t.path_to_ids) :
    ∀ k, (t.updateMetadataExisting id md_old md').path_to_ids.get k =
      if md_old.relevant_paths = md'.relevant_paths then t.path_to_ids.get k
      else ((List.replicate (md_old.relevant_paths.count k) id).foldl
          List.erase (t.path_to_ids.get k)) ++
        List.replicate (md'.relevant_paths.count k) id := by
  intro k
  unfold RojoTree.updateMetadataExisting
  by_cases hpaths : md_old.relevant_paths = md'.relevant_paths
  · rw [if_pos hpaths]
    repeat' split
    all_goals first
      | rfl
      | exact absurd hpaths (by assumption)
  · rw [if_neg hpaths]
    repeat' split
    all_goals first
      | exact absurd (not_not.mp (by assumption)) hpaths
      | (rw [get_foldl_insert, get_foldl_remove _ _ _ _ hwp])

theorem updateMetadataExisting_path_mmwf (t : RojoTree) (id : Nat)
    (md_old md' : InstanceMetadata) (hwp : MMWF t.path_to_ids) :
    MMWF (t.updateMetadataExisting id md_old md').path_to_ids := by
  unfold RojoTree.updateMetadataExisting
  repeat' split
  all_goals
    first
    | exact hwp
    | exact mmwf_foldl_insert _ _ _ (mmwf_foldl_remove _ _ _ hwp)

theorem updateMetadataExisting_specidx_mmwf (t : RojoTree) (id : Nat)
    (md_old md' : InstanceMetadata) (hws : MMWF t.specified_id_to_refs) :
    MMWF (t.updateMetadataExisting id md_old md').specified_id_to_refs := by
  unfold RojoTree.updateMetadataExisting
  repeat' split
  all_goals
    first
    | exact hws
    | exact MultiMap.mmwf_remove _ _ _ hws
    | exact MultiMap.mmwf_insert _ _ _ hws
    | exact MultiMap.mmwf_remove _ _ _ (MultiMap.mmwf_insert _ _ _ hws)

theorem updateMetadataExisting_spec (t : RojoTree) (id : Nat)
    (md_old md' : InstanceMetadata) (hws : MMWF t.specified_id_to_refs) :
    ∀ q, (t.updateMetadataExisting id md_old md').specified_id_to_refs.get q =
      if md_old.specified_id = md'.specified_id then
        t.specified_id_to_refs.get q
      else if md_old.specified_id = some q then
        (if md'.specified_id = some q then
          t.specified_id_to_refs.get q ++ [id]
         else t.specified_id_to_refs.get q).erase id
      else if md'.specified_id = some q then
        t.specified_id_to_refs.get q ++ [id]
      else t.specified_id_to_refs.get q := by
  intro q
  simp only [RojoTree.updateMetadataExisting]
  by_cases hspec : md_old.specified_id = md'.specified_id
  · rw [if_pos hspec]
    rw [if_neg (not_not_intro hspec)]
    split <;> rfl
  · rw [if_neg hspec]
    rw [if_pos hspec]
    by_cases hpc : md_old.relevant_paths = md'.relevant_paths <;>
      first
      | rw [if_neg (not_not_intro hpc)]
      | rw [if_pos hpc]
    all_goals
      cases hn : md'.specified_id with
      | none =>
        cases ho : md_old.specified_id with
        | none => exact absurd (by rw [ho, hn]) hspec
        | some ov =>
          show (t.specified_id_to_refs.remove ov id).get q = _
          simp only [if_neg (fun hh => Option.noConfusion hh :
            ¬ ((none : Option String) = some q))]
          by_cases ho2 : ov = q
          · rw [if_pos (show some ov = some q by rw [ho2])]
            rw [show q = ov from ho2.symm]
            rw [MultiMap.get_remove_self _ _ _ hws]
          · rw [if_neg (fun hh => ho2 (Option.some.inj hh))]
            rw [MultiMap.get_remove_ne _ _ _ _ (fun hh => ho2 hh.symm)]
      | some nv =>
        cases ho : md_old.specified_id with
        | none =>
          show (t.specified_id_to_refs.insert nv id).get q = _
          rw [if_neg (fun hh => Option.noConfusion hh :
            ¬ ((none : Option String) = some q))]
          by_cases hn2 : nv = q
          · rw [if_pos (show some nv = some q by rw [hn2])]
            rw [show q = nv from hn2.symm]
            rw [MultiMap.get_insert_self]
          · rw [if_neg (fun hh => hn2 (Option.some.inj hh))]
            rw [MultiMap.get_insert_ne _ _ _ _ (fun hh => hn2 hh.symm)]
        | some ov =>
          show ((t.specified_id_to_refs.insert nv id).remove ov id).get q = _
          by_cases ho2 : ov = q
          · rw [if_pos (show some ov = some q by rw [ho2])]
            by_cases hn2 : nv = q
            · exact absurd (show md_old.specified_id = md'.specified_id by
                rw [ho, hn, ho2, hn2]) hspec
            · rw [if_neg (fun hh => hn2 (Option.some.inj hh))]
              rw [show q = ov from ho2.symm]
              rw [MultiMap.get_remove_self _ _ _
                (MultiMap.mmwf_insert _ _ _ hws)]
              rw [MultiMap.get_insert_ne _ _ _ _
                (fun hh => hn2 (by rw [← hh]; exact ho2))]
          · rw [if_neg (fun hh => ho2 (Option.some.inj hh))]
            rw [MultiMap.get_remove_ne _ _ _ _ (fun hh => ho2 hh.symm)]
            by_cases hn2 : nv = q
            · rw [if_pos (show some nv = some q by rw [hn2])]
              rw [show q = nv from hn2.symm]
              rw [MultiMap.get_insert_self]
            · rw [if_neg (fun hh => hn2 (Option.some.inj hh))]
              rw [MultiMap.get_insert_ne _ _ _ _ (fun hh => hn2 hh.symm)]

/-!  ## Helper lemmas for the preservation of the combined invariant  -/

mutual

theorem find_some_of_mem : ∀ (i : Inst) (x : Nat), x ∈ Inst.refsList i →
    ∃ sub, i.find x = some sub
  | .mk r nm cl pr cs, x => by
    intro h
    simp only [Inst.refsList, List.mem_cons] at h
    simp only [Inst.find]
    by_cases hr : r = x
    · exact ⟨_, by rw [if_pos hr]⟩
    · rw [if_neg hr]
      exact findF_some_of_mem cs x (h.resolve_left (fun hh => hr hh.symm))

theorem findF_some_of_mem : ∀ (l : List Inst) (x : Nat), x ∈ refsListF l →
    ∃ sub, findF l x = some sub
  | [], x => by intro h; simp [refsListF] at h
  | i :: rest, x => by
    intro h
    simp only [refsListF, List.mem_append] at h
    simp only [findF]
    cases hf : i.find x with
    | some s => exact ⟨s, rfl⟩
    | none =>
      cases h with
      | inl hm =>
        obtain ⟨s, hs⟩ := find_some_of_mem i x hm
        rw [hf] at hs
        exact Option.noConfusion hs
      | inr hm => exact findF_some_of_mem rest x hm

end

mutual

theorem refsList_destroy_sublist : ∀ (i : Inst) (tgt : Nat),
    (Inst.refsList (i.destroy tgt)).Sublist (Inst.refsList i)
  | .mk r nm cl pr cs, tgt => by
    simp only [Inst.destroy, Inst.refsList]
    exact (refsListF_destroyF_sublist cs tgt).cons₂ r

theorem refsListF_destroyF_sublist : ∀ (l : List Inst) (tgt : Nat),
    (refsListF (destroyF l tgt)).Sublist (refsListF l)
  | [], tgt => by simp [destroyF, refsListF]
  | i :: rest, tgt => by
    simp only [destroyF]
    by_cases hr : i.referent = tgt
    · rw [if_pos hr]
      simp only [refsListF]
      exact (refsListF_destroyF_sublist rest tgt).trans
        (List.sublist_append_right _ _)
    · rw [if_neg hr]
      simp only [refsListF]
      exact (refsList_destroy_sublist i tgt).append
        (refsListF_destroyF_sublist rest tgt)

end

theorem mem_remove_metadata_map (t : RojoTree) (r : Nat) :
    ∀ e ∈ (t.remove_metadata r).metadata_map, e ∈ t.metadata_map := by
  intro e he
  unfold RojoTree.remove_metadata at he
  cases hl : alistLookup t.metadata_map r with
  | none => rw [hl] at he; exact he
  | some md =>
    rw [hl] at he
    have : e ∈ alistErase t.metadata_map r := by
      cases hs : md.specified_id with
      | none => simpa only [hs] using he
      | some sq => simpa only [hs] using he
    exact List.mem_of_mem_filter this

theorem mem_foldl_remove_metadata_map (rs : List Nat) :
    ∀ (t : RojoTree) (e : Nat × InstanceMetadata),
      e ∈ (rs.foldl (fun acc r => acc.remove_metadata r) t).metadata_map →
      e ∈ t.metadata_map := by
  induction rs with
  | nil => intro t e he; exact he
  | cons r rest ih =>
    intro t e he
    rw [List.foldl_cons] at he
    exact mem_remove_metadata_map t r e (ih (t.remove_metadata r) e he)

theorem mem_alistInsert (m : List (Nat × InstanceMetadata)) (r : Nat)
    (md : InstanceMetadata) :
    ∀ e ∈ alistInsert m r md, e ∈ m ∨ e.1 = r := by
  intro e he
  unfold alistInsert at he
  by_cases hk : m.any (fun e => e.1 = r) = true
  · rw [if_pos hk] at he
    obtain ⟨e0, he0, heq⟩ := List.mem_map.mp he
    by_cases h0 : e0.1 = r
    · rw [if_pos h0] at heq
      right
      rw [← heq]
    · rw [if_neg h0] at heq
      left
      rw [← heq]
      exact he0
  · rw [if_neg hk] at he
    rcases List.mem_append.mp he with hm | hm
    · exact Or.inl hm
    · right
      rw [List.mem_singleton.mp hm]

theorem TreeInv_new (s : InstanceSnapshot) : TreeInv (RojoTree.new s) := by
  obtain ⟨h1, h2, h3, h4, h5, h6, h7⟩ := new_spec s
  refine ⟨?_, ?_, ?_, h6, h7, ?_, ?_, ?_⟩
  · show Inst.refsList (RojoTree.new s).inner.root |>.Nodup
    rw [h2]
    exact List.nodup_range' _ _
  · intro x hx
    rw [RojoTree.liveRefs, h2] at hx
    rw [List.mem_range'] at hx
    obtain ⟨i, hi, hxi⟩ := hx
    rw [h1]
    omega
  · intro e he
    rw [h3] at he
    have hkey : e.1 ∈ ((snapPairs 0 s).1).map Prod.fst :=
      List.mem_map.mpr ⟨e, he, rfl⟩
    have := snapPairs_keys_mem hkey
    rw [h1]
    omega
  · intro x
    rw [RojoTree.liveRefs, h2, h3, alistLookup_isSome_iff]
    rw [snapPairs_keys]
  · intro k x
    rw [h4 k, h3]
    exact count_pathAdds k _ x (snapPairs_keys_nodup 0 s)
  · intro q x
    rw [h5 q, h3]
    exact count_specAdds q _ x (snapPairs_keys_nodup 0 s)

theorem TreeInv_insert (t : RojoTree) (parent : Nat) (s : InstanceSnapshot)
    (hInv : TreeInv t) (hp : parent ∈ t.liveRefs) :
    TreeInv (t.insert_instance parent s).2 := by
  obtain ⟨i1, i2, i3, i4, i5, i6, i7, i8⟩ := insert_instance_spec s t parent
    hInv.domNodup hInv.domBound hInv.metaBound hp hInv.mmwfPath hInv.mmwfSpec
  have hbuilt : Inst.refsList (buildInst t.inner.nextRef s).1 =
      List.range' t.inner.nextRef (snapSize s) := by
    rw [refsList_build, snapPairs_keys]
  have hperm : List.Perm ((t.insert_instance parent s).2.liveRefs)
      (t.liveRefs ++ List.range' t.inner.nextRef (snapSize s)) := by
    rw [RojoTree.liveRefs, i3, ← hbuilt]
    exact attach_perm t parent _ hInv.domNodup hp
  have hfresh : ∀ x, x < t.inner.nextRef →
      alistLookup (snapPairs t.inner.nextRef s).1 x = none := by
    intro x hx
    apply alistLookup_eq_none_of_not_key
    intro hk
    have := snapPairs_keys_mem hk
    omega
  refine ⟨?_, ?_, ?_, i7, i8, ?_, ?_, ?_⟩
  · exact hperm.nodup_iff.mpr
      (nodup_append_range _ _ _ hInv.domNodup hInv.domBound)
  · intro x hx
    rw [i2]
    rcases List.mem_append.mp (hperm.mem_iff.mp hx) with hm | hm
    · have := hInv.domBound x hm
      omega
    · rw [List.mem_range'] at hm
      obtain ⟨i, hi, hxi⟩ := hm
      omega
  · intro e he
    rw [i4] at he
    rw [i2]
    rcases List.mem_append.mp he with hm | hm
    · have := hInv.metaBound e hm
      omega
    · have hkey : e.1 ∈ ((snapPairs t.inner.nextRef s).1).map Prod.fst :=
        List.mem_map.mpr ⟨e, hm, rfl⟩
      have := snapPairs_keys_mem hkey
      omega
  · intro x
    rw [i4, hperm.mem_iff, List.mem_append]
    cases hold : alistLookup t.metadata_map x with
    | some md =>
      rw [alistLookup_append_left _ _ _ _ hold]
      have hx : x ∈ t.liveRefs := (hInv.metaDom x).mp (by rw [hold]; rfl)
      simp [hx]
    | none =>
      rw [alistLookup_append_right _ _ _ hold]
      have hx : x ∉ t.liveRefs := by
        intro hc
        have := (hInv.metaDom x).mpr hc
        rw [hold] at this
        exact Bool.noConfusion this
      rw [alistLookup_isSome_iff, snapPairs_keys]
      constructor
      · intro h
        exact Or.inr h
      · intro h
        exact h.resolve_left (fun hh => absurd hh hx)
  · intro k x
    rw [i5 k, List.count_append, i4]
    rw [count_pathAdds k _ x (snapPairs_keys_nodup _ s)]
    rw [hInv.pathCount k x]
    cases hold : alistLookup t.metadata_map x with
    | some md =>
      rw [alistLookup_append_left _ _ _ _ hold]
      have hxlt : x < t.inner.nextRef := by
        have hkey : x ∈ t.metadata_map.map Prod.fst := by
          rw [← alistLookup_isSome_iff, hold]
          rfl
        obtain ⟨e, he, hek⟩ := List.mem_map.mp hkey
        have := hInv.metaBound e he
        omega
      rw [hfresh x hxlt]
      simp
    | none =>
      rw [alistLookup_append_right _ _ _ hold]
      cases alistLookup (snapPairs t.inner.nextRef s).1 x with
      | some md => simp
      | none => simp
  · intro q x
    rw [i6 q, List.count_append, i4]
    rw [count_specAdds q _ x (snapPairs_keys_nodup _ s)]
    rw [hInv.specCount q x]
    cases hold : alistLookup t.metadata_map x with
    | some md =>
      rw [alistLookup_append_left _ _ _ _ hold]
      have hxlt : x < t.inner.nextRef := by
        have hkey : x ∈ t.metadata_map.map Prod.fst := by
          rw [← alistLookup_isSome_iff, hold]
          rfl
        obtain ⟨e, he, hek⟩ := List.mem_map.mp hkey
        have := hInv.metaBound e he
        omega
      rw [hfresh x hxlt]
      simp
    | none =>
      rw [alistLookup_append_right _ _ _ hold]
      cases alistLookup (snapPairs t.inner.nextRef s).1 x with
      | some md => simp
      | none => simp

theorem TreeInv_remove (t : RojoTree) (id : Nat) (hInv : TreeInv t)
    (hmem : id ∈ t.liveRefs) (hroot : id ≠ t.get_root_id) :
    TreeInv (t.remove id) := by
  obtain ⟨sub, hf⟩ := find_some_of_mem t.inner.root id hmem
  obtain ⟨r1, r2, r3, r4, r5, r6, r7⟩ := remove_spec t id sub hf
    hInv.domNodup hInv.mmwfPath hInv.mmwfSpec
  have htgt : ¬ id = t.inner.root.referent := hroot
  have hiff := refs_destroy_iff t.inner.root id sub hInv.domNodup htgt hf
  have hndsub : (Inst.refsList sub).Nodup :=
    ((find_some_sub _ _ _ hf).2).nodup hInv.domNodup
  have hpermbfs : List.Perm (bfsRefs [sub]) (Inst.refsList sub) := by
    have h := bfsRefs_perm [sub]
    simpa [refsListF] using h
  have hndbfs : (bfsRefs [sub]).Nodup := (hpermbfs.nodup_iff).mpr hndsub
  refine ⟨?_, ?_, ?_, r6, r7, ?_, ?_, ?_⟩
  · show Inst.refsList (t.remove id).inner.root |>.Nodup
    rw [r2]
    exact (refsList_destroy_sublist _ _).nodup hInv.domNodup
  · intro x hx
    rw [RojoTree.liveRefs, r2] at hx
    rw [r1]
    exact hInv.domBound x ((refsList_destroy_sublist _ _).subset hx)
  · intro e he
    rw [remove_eq_some t id sub hf] at he
    rw [r1]
    exact hInv.metaBound e (mem_foldl_remove_metadata_map _ _ _ he)
  · intro x
    rw [r3 x]
    show _ ↔ x ∈ Inst.refsList (t.remove id).inner.root
    rw [r2, hiff x]
    by_cases hx : x ∈ Inst.refsList sub
    · rw [if_pos hx]
      simp [hx]
    · rw [if_neg hx]
      rw [hInv.metaDom x]
      constructor
      · intro h
        exact ⟨h, hx⟩
      · intro h
        exact h.1
  · intro k x
    rw [r4 k, count_foldl_erase]
    rw [count_removedPathIds t k _ x hndbfs]
    rw [hInv.pathCount k x, r3 x]
    by_cases hx : x ∈ Inst.refsList sub
    · rw [if_pos (hpermbfs.mem_iff.mpr hx), if_pos hx]
      simp
    · rw [if_neg (fun hh => hx (hpermbfs.mem_iff.mp hh)), if_neg hx]
      simp
  · intro q x
    rw [r5 q, count_foldl_erase]
    rw [count_removedSpecIds t q _ x hndbfs]
    rw [hInv.specCount q x, r3 x]
    by_cases hx : x ∈ Inst.refsList sub
    · rw [if_pos (hpermbfs.mem_iff.mpr hx), if_pos hx]
      simp
    · rw [if_neg (fun hh => hx (hpermbfs.mem_iff.mp hh)), if_neg hx]
      simp

theorem TreeInv_update (t : RojoTree) (id : Nat) (md' : InstanceMetadata)
    (hInv : TreeInv t) (hmem : id ∈ t.liveRefs) :
    TreeInv (t.update_metadata id md') := by
  have hsome : (alistLookup t.metadata_map id).isSome = true :=
    (hInv.metaDom id).mpr hmem
  obtain ⟨md_old, hl⟩ := Option.isSome_iff_exists.mp hsome
  rw [update_metadata_eq_some t id md_old md' hl]
  have hinner := updateMetadataExisting_inner t id md_old md'
  have hmap := updateMetadataExisting_map t id md_old md'
  refine ⟨?_, ?_, ?_,
    updateMetadataExisting_path_mmwf t id md_old md' hInv.mmwfPath,
    updateMetadataExisting_specidx_mmwf t id md_old md' hInv.mmwfSpec,
    ?_, ?_, ?_⟩
  · show Inst.refsList (t.updateMetadataExisting id md_old md').inner.root
      |>.Nodup
    rw [hinner]
    exact hInv.domNodup
  · intro x hx
    rw [RojoTree.liveRefs, hinner] at hx
    show x < (t.updateMetadataExisting id md_old md').inner.nextRef
    rw [hinner]
    exact hInv.domBound x hx
  · intro e he
    rw [hmap] at he
    show e.1 < (t.updateMetadataExisting id md_old md').inner.nextRef
    rw [hinner]
    rcases mem_alistInsert _ _ _ e he with hm | hk
    · exact hInv.metaBound e hm
    · rw [hk]
      exact hInv.domBound id hmem
  · intro x
    rw [hmap]
    show _ ↔ x ∈ Inst.refsList
      (t.updateMetadataExisting id md_old md').inner.root
    rw [hinner]
    by_cases hx : x = id
    · subst hx
      rw [alistLookup_insert_self]
      constructor
      · intro _
        exact hmem
      · intro _
        rfl
    · rw [alistLookup_insert_ne _ _ _ _ hx]
      exact hInv.metaDom x
  · intro k x
    rw [updateMetadataExisting_path t id md_old md' hInv.mmwfPath k, hmap]
    by_cases hpc : md_old.relevant_paths = md'.relevant_paths
    · rw [if_pos hpc]
      rw [hInv.pathCount k x]
      by_cases hx : x = id
      · subst hx
        rw [alistLookup_insert_self]
        simp only [hl]
        rw [hpc]
      · rw [alistLookup_insert_ne _ _ _ _ hx]
    · rw [if_neg hpc]
      rw [List.count_append, count_foldl_erase]
      rw [hInv.pathCount k x]
      by_cases hx : x = id
      · subst hx
        rw [alistLookup_insert_self]
        simp only [hl, List.count_replicate_self]
        omega
      · rw [alistLookup_insert_ne _ _ _ _ hx]
        have h1 : ∀ n : Nat, (List.replicate n id).count x = 0 := fun n =>
          List.count_eq_zero.mpr (fun h => hx (List.eq_of_mem_replicate h))
        rw [h1, h1]
        omega
  · intro q x
    rw [updateMetadataExisting_spec t id md_old md' hInv.mmwfSpec q, hmap]
    by_cases hsq : md_old.specified_id = md'.specified_id
    · rw [if_pos hsq]
      rw [hInv.specCount q x]
      by_cases hx : x = id
      · subst hx
        rw [alistLookup_insert_self]
        simp only [hl]
        rw [hsq]
      · rw [alistLookup_insert_ne _ _ _ _ hx]
    · rw [if_neg hsq]
      by_cases hx : x = id
      · subst hx
        rw [alistLookup_insert_self]
        by_cases hOq : md_old.specified_id = some q
        · rw [if_pos hOq]
          by_cases hNq : md'.specified_id = some q
          · exact absurd (hOq.trans hNq.symm) hsq
          · rw [if_neg hNq]
            rw [List.count_erase_self]
            rw [hInv.specCount q x]
            simp only [hl]
            rw [if_pos hOq]
            simp [hNq]
        · rw [if_neg hOq]
          by_cases hNq : md'.specified_id = some q
          · rw [if_pos hNq, List.count_append]
            rw [hInv.specCount q x]
            simp only [hl]
            rw [if_neg hOq]
            simp [hNq]
          · rw [if_neg hNq]
            rw [hInv.specCount q x]
            simp only [hl]
            rw [if_neg hOq]
            simp [hNq]
      · rw [alistLookup_insert_ne _ _ _ _ hx]
        by_cases hOq : md_old.specified_id = some q
        · rw [if_pos hOq]
          by_cases hNq : md'.specified_id = some q
          · exact absurd (hOq.trans hNq.symm) hsq
          · rw [if_neg hNq]
            rw [List.count_erase_of_ne hx]
            exact hInv.specCount q x
        · rw [if_neg hOq]
          by_cases hNq : md'.specified_id = some q
          · rw [if_pos hNq, List.count_append]
            have h0 : (([id] : List Nat).count x) = 0 := by
              rw [List.count_eq_zero]
              simp [hx]
            rw [h0, hInv.specCount q x, Nat.add_zero]
          · rw [if_neg hNq]
            exact hInv.specCount q x

/-- Every reachable tree state satisfies the combined invariant. -/
theorem reachable_treeInv (t : RojoTree) (h : Reachable t) : TreeInv t := by
  induction h with
  | base s => exact TreeInv_new s
  | insert t parent s _ hp ih => exact TreeInv_insert t parent s ih hp
  | remove t id _ hm hr ih => exact TreeInv_remove t id ih hm hr
  | update t id md _ hm ih => exact TreeInv_update t id md ih hm

/-!  ## Helper lemmas for the claims: finding nodes, props, singleton lists -/

mutual

theorem find_none_of_not_mem : ∀ (i : Inst) (x : Nat),
    x ∉ Inst.refsList i → i.find x = none
  | .mk r nm cl pr cs, x => by
    intro h
    simp only [Inst.refsList, List.mem_cons, not_or] at h
    simp only [Inst.find]
    rw [if_neg (fun hh => h.1 hh.symm)]
    exact findF_none_of_not_mem cs x h.2

theorem findF_none_of_not_mem : ∀ (l : List Inst) (x : Nat),
    x ∉ refsListF l → findF l x = none
  | [], x => fun _ => rfl
  | i :: rest, x => by
    intro h
    simp only [refsListF, List.mem_append, not_or] at h
    simp only [findF]
    rw [find_none_of_not_mem i x h.1]
    exact findF_none_of_not_mem rest x h.2

end

theorem findF_append_right (a b : List Inst) (x : Nat)
    (h : findF a x = none) : findF (a ++ b) x = findF b x := by
  induction a with
  | nil => rfl
  | cons i rest ih =>
    simp only [findF] at h
    cases hf : i.find x with
    | some s =>
      rw [hf] at h
      exact Option.noConfusion h
    | none =>
      rw [hf] at h
      simp only [List.cons_append, findF, hf]
      exact ih h

mutual

theorem find_insertChild : ∀ (i : Inst) (p : Nat) (c : Inst),
    p ∈ Inst.refsList i → c.referent ∉ Inst.refsList i →
    (i.insertChild p c).find c.referent = some c
  | .mk r nm cl pr cs, p, c => by
    intro hp hc
    simp only [Inst.refsList, List.mem_cons, not_or] at hc
    simp only [Inst.insertChild]
    by_cases hr : r = p
    · rw [if_pos hr]
      simp only [Inst.find]
      rw [if_neg (fun hh => hc.1 hh.symm)]
      rw [findF_append_right cs [c] c.referent
        (findF_none_of_not_mem cs c.referent hc.2)]
      simp only [findF, Inst.find_self]
    · rw [if_neg hr]
      simp only [Inst.find]
      rw [if_neg (fun hh => hc.1 hh.symm)]
      apply findF_insertChildF cs p c _ hc.2
      simp only [Inst.refsList, List.mem_cons] at hp
      exact hp.resolve_left (fun hh => hr hh.symm)

theorem findF_insertChildF : ∀ (l : List Inst) (p : Nat) (c : Inst),
    p ∈ refsListF l → c.referent ∉ refsListF l →
    findF (insertChildF l p c) c.referent = some c
  | [], p, c => by
    intro hp _
    simp [refsListF] at hp
  | i :: rest, p, c => by
    intro hp hc
    simp only [refsListF, List.mem_append, not_or] at hp hc
    simp only [insertChildF, findF]
    by_cases hmem : p ∈ Inst.refsList i
    · rw [find_insertChild i p c hmem hc.1]
    · have hrest : p ∈ refsListF rest := hp.resolve_left hmem
      rw [insertChild_notMem i p c hmem]
      rw [find_none_of_not_mem i c.referent hc.1]
      exact findF_insertChildF rest p c hrest hc.2

end

theorem buildInst_referent (n : Nat) (s : InstanceSnapshot) :
    (buildInst n s).1.referent = n := by
  cases s with
  | mk c nm pr md cs => simp [buildInst, Inst.referent]

theorem buildInst_properties (n : Nat) (c nm : String) (pr : Props)
    (md : InstanceMetadata) (cs : List InstanceSnapshot) :
    (buildInst n (.mk c nm pr md cs)).1.properties =
      propsInsertAll (propsInsertAll [] (legacyPivotShim c pr)) pr := by
  simp [buildInst, Inst.properties]

theorem alistLookup_some_mem (m : List (Nat × InstanceMetadata)) (x : Nat)
    (md : InstanceMetadata) (h : alistLookup m x = some md) : (x, md) ∈ m := by
  induction m with
  | nil => exact Option.noConfusion h
  | cons e rest ih =>
    rw [alistLookup_cons] at h
    by_cases he : e.1 = x
    · rw [if_pos he] at h
      cases e with
      | mk a b =>
        have ha : a = x := he
        have hb : b = md := Option.some.inj h
        subst ha
        subst hb
        exact List.mem_cons_self _ _
    · rw [if_neg he] at h
      exact List.mem_cons_of_mem _ (ih h)

theorem alistLookup_snapPairs_self (n : Nat) (s : InstanceSnapshot) :
    alistLookup (snapPairs n s).1 n = some s.metadata := by
  cases s with
  | mk c nm pr md cs =>
    simp only [snapPairs, InstanceSnapshot.metadata]
    rw [alistLookup_cons, if_pos rfl]

theorem eq_singleton_of_counts : ∀ (l : List Nat) (b : Nat),
    l.count b = 1 → (∀ x, ¬ x = b → l.count x = 0) → l = [b]
  | [], b => by
    intro h _
    simp at h
  | x :: rest, b => by
    intro h1 h2
    by_cases hx : x = b
    · subst hx
      rw [List.count_cons_self] at h1
      have hrest : rest.count x = 0 := by omega
      have hnil : rest = [] := by
        cases rest with
        | nil => rfl
        | cons y r2 =>
          by_cases hy : y = x
          · subst hy
            rw [List.count_cons_self] at hrest
            omega
          · have hz := h2 y hy
            rw [List.count_cons_of_ne hy, List.count_cons_self] at hz
            omega
      rw [hnil]
    · have := h2 x hx
      rw [List.count_cons_self] at this
      omega


theorem propsLookup_cons (kv : String × Variant) (rest : Props) (k : String) :
    propsLookup (kv :: rest) k =
      if kv.1 = k then some kv.2 else propsLookup rest k := by
  unfold propsLookup
  by_cases h : kv.1 = k
  · rw [if_pos h]
    rw [List.find?_cons_of_pos _ (by simpa using h)]
    rfl
  · rw [if_neg h]
    rw [List.find?_cons_of_neg _ (by simpa using h)]

theorem propsContainsKey_false_iff (ps : Props) (k : String) :
    propsContainsKey ps k = false ↔ k ∉ ps.map Prod.fst := by
  unfold propsContainsKey
  rw [← Bool.not_eq_true, List.any_eq_true]
  simp

theorem propsLookup_append (a b : Props) (k : String) :
    propsLookup (a ++ b) k =
      match propsLookup a k with
      | some w => some w
      | none => propsLookup b k := by
  induction a with
  | nil => simp [propsLookup]
  | cons kv rest ih =>
    rw [List.cons_append, propsLookup_cons, propsLookup_cons]
    by_cases h : kv.1 = k
    · rw [if_pos h, if_pos h]
    · rw [if_neg h, if_neg h]
      exact ih

theorem propsLookup_map_subst_self (ps : Props) (k : String) (v : Variant)
    (h : k ∈ ps.map Prod.fst) :
    propsLookup (ps.map (fun kv => if kv.1 = k then (k, v) else kv)) k =
      some v := by
  induction ps with
  | nil => simp at h
  | cons kv rest ih =>
    by_cases hkk : kv.1 = k
    · rw [List.map_cons, if_pos hkk, propsLookup_cons, if_pos rfl]
    · rw [List.map_cons, if_neg hkk, propsLookup_cons, if_neg hkk]
      apply ih
      simp only [List.map_cons, List.mem_cons] at h
      exact h.resolve_left (fun hh => hkk hh.symm)

theorem propsLookup_map_subst_ne (ps : Props) (k k' : String) (v : Variant)
    (h : ¬ k' = k) :
    propsLookup (ps.map (fun kv => if kv.1 = k then (k, v) else kv)) k' =
      propsLookup ps k' := by
  induction ps with
  | nil => rfl
  | cons kv rest ih =>
    by_cases hkk : kv.1 = k
    · rw [List.map_cons, if_pos hkk, propsLookup_cons, propsLookup_cons]
      rw [if_neg (fun hh : (k, v).1 = k' => h hh.symm)]
      rw [if_neg (fun hh : kv.1 = k' => h (hh ▸ hkk))]
      exact ih
    · rw [List.map_cons, if_neg hkk, propsLookup_cons, propsLookup_cons]
      by_cases hkv : kv.1 = k'
      · rw [if_pos hkv, if_pos hkv]
      · rw [if_neg hkv, if_neg hkv]
        exact ih

theorem propsLookup_propsInsert_self (ps : Props) (k : String) (v : Variant) :
    propsLookup (propsInsert ps k v) k = some v := by
  unfold propsInsert
  by_cases hk : ps.any (fun kv => kv.1 = k) = true
  · rw [if_pos hk]
    apply propsLookup_map_subst_self
    obtain ⟨kv, hkv, hp⟩ := List.any_eq_true.mp hk
    exact List.mem_map.mpr ⟨kv, hkv, by simpa using hp⟩
  · rw [if_neg hk, propsLookup_append]
    have hnone : propsLookup ps k = none := by
      unfold propsLookup
      rw [List.find?_eq_none.mpr]
      · rfl
      · intro kv hkv
        simp only [decide_eq_true_eq]
        intro hc
        exact hk (List.any_eq_true.mpr ⟨kv, hkv, by simpa using hc⟩)
    rw [hnone]
    rw [propsLookup_cons, if_pos rfl]

theorem propsLookup_propsInsert_ne (ps : Props) (k k' : String) (v : Variant)
    (h : ¬ k' = k) :
    propsLookup (propsInsert ps k v) k' = propsLookup ps k' := by
  unfold propsInsert
  by_cases hk : ps.any (fun kv => kv.1 = k) = true
  · rw [if_pos hk]
    exact propsLookup_map_subst_ne ps k k' v h
  · rw [if_neg hk, propsLookup_append]
    cases hx : propsLookup ps k' with
    | some w => rfl
    | none =>
      rw [propsLookup_cons, if_neg (fun hh : (k, v).1 = k' => h hh.symm)]
      rfl

theorem propsLookup_propsInsertAll_of_not_key (new : Props) :
    ∀ (base : Props) (k : String), k ∉ new.map Prod.fst →
      propsLookup (propsInsertAll base new) k = propsLookup base k := by
  induction new with
  | nil => intro base k _; rfl
  | cons kv rest ih =>
    intro base k hk
    simp only [List.map_cons, List.mem_cons, not_or] at hk
    show propsLookup (propsInsertAll (propsInsert base kv.1 kv.2) rest) k = _
    rw [ih _ k hk.2]
    exact propsLookup_propsInsert_ne base kv.1 k kv.2 hk.1

theorem propsLookup_propsInsertAll_of_lookup (new : Props) :
    ∀ (base : Props) (k : String) (v : Variant),
      (new.map Prod.fst).Nodup → propsLookup new k = some v →
      propsLookup (propsInsertAll base new) k = some v := by
  induction new with
  | nil => intro base k v _ h; exact Option.noConfusion h
  | cons kv rest ih =>
    intro base k v hnd h
    simp only [List.map_cons, List.nodup_cons] at hnd
    rw [propsLookup_cons] at h
    show propsLookup (propsInsertAll (propsInsert base kv.1 kv.2) rest) k = _
    by_cases hkk : kv.1 = k
    · rw [if_pos hkk] at h
      have hkrest : k ∉ rest.map Prod.fst := by
        rw [← hkk]
        exact hnd.1
      rw [propsLookup_propsInsertAll_of_not_key rest _ k hkrest]
      rw [← hkk, propsLookup_propsInsert_self]
      exact h
    · rw [if_neg hkk] at h
      exact ih _ k v hnd.2 h

mutual

theorem recurse_create_node_none : ∀ (t : RojoTree) (isFile : String → Bool)
    (dir : String) (i : Inst), recurse_create_node t isFile dir i = none
  | t, isFile, dir, .mk r n c p cs => by
    simp only [recurse_create_node]
    rw [recurseChildrenSM_nil t isFile dir cs]
    rfl

theorem recurseChildrenSM_nil : ∀ (t : RojoTree) (isFile : String → Bool)
    (dir : String) (l : List Inst), recurseChildrenSM t isFile dir l = []
  | t, isFile, dir, [] => rfl
  | t, isFile, dir, i :: rest => by
    simp only [recurseChildrenSM]
    rw [recurse_create_node_none t isFile dir i]
    exact recurseChildrenSM_nil t isFile dir rest

end

theorem get_specified_id_eq_some_iff (t : RojoTree) (q : String) (r : Nat) :
    t.get_specified_id q = some r ↔ t.specified_id_to_refs.get q = [r] := by
  unfold RojoTree.get_specified_id
  cases hl : t.specified_id_to_refs.get q with
  | nil => simp
  | cons a rest =>
    cases rest with
    | nil => simp
    | cons b r2 => simp

/-- C9: the projection `recurse_create_node` prunes every node whose list of
projected children is empty before looking at its own file paths; by
induction every node therefore projects to absent, so the sourcemap of any
referent of any tree is absent. -/
theorem c9_projection_always_absent (t : RojoTree) (isFile : String → Bool)
    (project_dir : String) (referent : Nat) :
    sourcemapForRef t isFile project_dir referent = none := by
  unfold sourcemapForRef
  cases t.inner.root.find referent with
  | none => rfl
  | some i => exact recurse_create_node_none t isFile project_dir i

/-- C1: the claim says a subtree consisting of exactly one file-backed leaf
projects to a chain of nodes down to that leaf; in the code the
`children.is_empty()` prune runs before `file_paths` is computed, so the
single file-backed leaf `c1tree` (root metadata lists the file `"f.lua"`,
every path is a file) projects to absent instead of a one-node chain. -/
theorem c1_file_backed_leaf_projects_absent :
    sourcemapForRef c1tree (fun _ => true) "" c1tree.get_root_id = none := rfl

/-- C2 (amended): the descendant traversal seeded at the root of a tree
built from a snapshot with `N` nodes yields exactly `N` items — every live
node *including* the root itself — in breadth-first order, each exactly
once (the claim said `N − 1` items excluding the root). -/
theorem c2_descendants_from_root (s : InstanceSnapshot) :
    ((RojoTree.new s).descendants (RojoTree.new s).get_root_id).length =
      snapSize s ∧
    ((RojoTree.new s).descendants (RojoTree.new s).get_root_id).Nodup ∧
    (∀ x, x ∈ (RojoTree.new s).descendants (RojoTree.new s).get_root_id ↔
      x ∈ (RojoTree.new s).liveRefs) := by
  obtain ⟨h1, h2, h3, h4, h5, h6, h7⟩ := new_spec s
  have hfind : (RojoTree.new s).inner.root.find
      (RojoTree.new s).get_root_id = some (RojoTree.new s).inner.root :=
    Inst.find_self _
  have hd : (RojoTree.new s).descendants (RojoTree.new s).get_root_id =
      bfsRefs [(RojoTree.new s).inner.root] := by
    unfold RojoTree.descendants
    rw [hfind]
  have hperm : List.Perm (bfsRefs [(RojoTree.new s).inner.root])
      (Inst.refsList (RojoTree.new s).inner.root) := by
    have h := bfsRefs_perm [(RojoTree.new s).inner.root]
    simpa [refsListF] using h
  rw [hd]
  refine ⟨?_, ?_, ?_⟩
  · rw [hperm.length_eq, h2, List.length_range']
  · exact hperm.nodup_iff.mpr (by rw [h2]; exact List.nodup_range' _ _)
  · intro x
    exact hperm.mem_iff

/-- C2, counterexample to the frozen claim: the two-node snapshot `c2snap`
has `N = 2` nodes, and the traversal from the root yields `2` items, not
`N − 1 = 1`. -/
theorem c2_counterexample :
    snapSize c2snap = 2 ∧
    ((RojoTree.new c2snap).descendants
      (RojoTree.new c2snap).get_root_id).length ≠ snapSize c2snap - 1 := by
  constructor
  · rfl
  · decide

/-- C4: along every sequence of the mutating operations applied to live
handles (the `Reachable` states), the key-set of the metadata map equals
the live node set of the value store: metadata exists iff the node does. -/
theorem c4_metadata_matches_nodes (t : RojoTree) (h : Reachable t) :
    metaMatchesDom t :=
  (reachable_treeInv t h).metaDom

theorem c4_metadata_matches_nodes_witness :
    metaMatchesDom (RojoTree.new (.mk "DataModel" "root" [] ⟨[], none⟩ [])) :=
  c4_metadata_matches_nodes _ (Reachable.base _)

/-- C10: `update_metadata` never touches the value store (so every node's
name, class, properties and links are unchanged) and changes no metadata
entry other than the updated handle's. -/
theorem c10_update_metadata_frame (t : RojoTree) (id : Nat)
    (md' : InstanceMetadata) :
    (t.update_metadata id md').inner = t.inner ∧
    (∀ x, ¬ x = id →
      alistLookup (t.update_metadata id md').metadata_map x =
        alistLookup t.metadata_map x) := by
  cases hl : alistLookup t.metadata_map id with
  | none =>
    rw [update_metadata_eq_none t id md' hl]
    refine ⟨rfl, ?_⟩
    intro x hx
    show alistLookup (alistInsert t.metadata_map id md') x = _
    exact alistLookup_insert_ne _ _ _ _ hx
  | some md_old =>
    rw [update_metadata_eq_some t id md_old md' hl]
    refine ⟨updateMetadataExisting_inner t id md_old md', ?_⟩
    intro x hx
    rw [updateMetadataExisting_map]
    exact alistLookup_insert_ne _ _ _ _ hx

theorem c10_update_metadata_frame_witness :
    (treeT.update_metadata 0 ⟨[], none⟩).inner = treeT.inner ∧
    alistLookup (treeT.update_metadata 0 ⟨[], none⟩).metadata_map 3 =
      alistLookup treeT.metadata_map 3 :=
  ⟨(c10_update_metadata_frame treeT 0 ⟨[], none⟩).1,
   (c10_update_metadata_frame treeT 0 ⟨[], none⟩).2 3 (by decide)⟩

/-- C7: updating a live handle's metadata reconciles the Path Index as a
full diff: afterwards the handle is listed under a path exactly when that
path is among the *new* `relevant_paths` — so it is removed under every old
path that was dropped and added under every new one (in particular,
changing `{p1}` to `{p2}` delists it from `p1` and lists it under `p2`). -/
theorem c7_update_metadata_path_reconciliation (t : RojoTree) (id : Nat)
    (md_old md' : InstanceMetadata) (hR : Reachable t)
    (hl : alistLookup t.metadata_map id = some md_old) :
    ∀ k, id ∈ (t.update_metadata id md').get_ids_at_path k ↔
      k ∈ md'.relevant_paths := by
  have hInv := reachable_treeInv t hR
  have hmem : id ∈ t.liveRefs := (hInv.metaDom id).mp (by rw [hl]; rfl)
  have hInv' := TreeInv_update t id md' hInv hmem
  intro k
  have hcnt := hInv'.pathCount k id
  have hmap2 : alistLookup (t.update_metadata id md').metadata_map id =
      some md' := by
    rw [update_metadata_eq_some t id md_old md' hl, updateMetadataExisting_map]
    exact alistLookup_insert_self _ _ _
  show id ∈ (t.update_metadata id md').path_to_ids.get k ↔ _
  rw [← List.count_pos_iff, hcnt]
  simp only [hmap2]
  exact List.count_pos_iff

theorem c7_update_metadata_path_reconciliation_witness :
    (0 ∈ (treeT.update_metadata 0 ⟨["q.lua"], none⟩).get_ids_at_path "q.lua" ↔
      "q.lua" ∈ (⟨["q.lua"], none⟩ : InstanceMetadata).relevant_paths) ∧
    (0 ∈ (treeT.update_metadata 0 ⟨["q.lua"], none⟩).get_ids_at_path "z.lua" ↔
      "z.lua" ∈ (⟨["q.lua"], none⟩ : InstanceMetadata).relevant_paths) :=
  ⟨c7_update_metadata_path_reconciliation treeT 0 ⟨[], none⟩
      ⟨["q.lua"], none⟩ (Reachable.base _) rfl "q.lua",
   c7_update_metadata_path_reconciliation treeT 0 ⟨[], none⟩
      ⟨["q.lua"], none⟩ (Reachable.base _) rfl "z.lua"⟩

/-- C3: `get_specified_id` returns a handle exactly when the
Stable-Identifier Index maps the identifier to exactly one handle (first
conjunct); when two distinct live handles both declare the identifier (and
nobody else does), the lookup is absent, and after removing one claimant
(provided the other survives the removal) the lookup returns the remaining
handle. -/
theorem c3_stable_id_lookup (t : RojoTree) (a b : Nat) (q : String)
    (mda mdb : InstanceMetadata) (hR : Reachable t)
    (hab : ¬ a = b)
    (hla : alistLookup t.metadata_map a = some mda)
    (hlb : alistLookup t.metadata_map b = some mdb)
    (hqa : mda.specified_id = some q) (hqb : mdb.specified_id = some q)
    (honly : ∀ e ∈ t.metadata_map, ¬ e.1 = a → ¬ e.1 = b →
      ¬ e.2.specified_id = some q) :
    (∀ q' r, t.get_specified_id q' = some r ↔
      t.specified_id_to_refs.get q' = [r]) ∧
    t.get_specified_id q = none ∧
    (¬ a = t.get_root_id → b ∈ (t.remove a).liveRefs →
      (t.remove a).get_specified_id q = some b) := by
  have hInv := reachable_treeInv t hR
  have hca : (t.specified_id_to_refs.get q).count a = 1 := by
    rw [hInv.specCount q a]
    simp only [hla]
    rw [if_pos hqa]
  have hcb : (t.specified_id_to_refs.get q).count b = 1 := by
    rw [hInv.specCount q b]
    simp only [hlb]
    rw [if_pos hqb]
  refine ⟨fun q' r => get_specified_id_eq_some_iff t q' r, ?_, ?_⟩
  · unfold RojoTree.get_specified_id
    cases hg : t.specified_id_to_refs.get q with
    | nil => rfl
    | cons x rest =>
      cases rest with
      | nil =>
        rw [hg] at hca hcb
        have ha : a ∈ [x] := List.count_pos_iff.mp (by omega)
        have hb : b ∈ [x] := List.count_pos_iff.mp (by omega)
        rw [List.mem_singleton] at ha hb
        exact absurd (ha.trans hb.symm) hab
      | cons y r2 => rfl
  · intro hroot hbl
    have hamem : a ∈ t.liveRefs := (hInv.metaDom a).mp (by rw [hla]; rfl)
    obtain ⟨sub, hf⟩ := find_some_of_mem t.inner.root a hamem
    obtain ⟨r1, r2, r3, r4, r5, r6, r7⟩ := remove_spec t a sub hf
      hInv.domNodup hInv.mmwfPath hInv.mmwfSpec
    have hiff := refs_destroy_iff t.inner.root a sub hInv.domNodup hroot hf
    have hInv3 := TreeInv_remove t a hInv hamem hroot
    have hbmem : b ∈ Inst.refsList ((t.remove a).inner.root) := hbl
    rw [r2] at hbmem
    have hbnot : b ∉ Inst.refsList sub := ((hiff b).mp hbmem).2
    have hamemsub : a ∈ Inst.refsList sub := by
      have := (find_some_sub _ _ _ hf).1
      rw [← this]
      exact Inst.referent_mem_refs sub
    have hcb3 : ((t.remove a).specified_id_to_refs.get q).count b = 1 := by
      rw [hInv3.specCount q b, r3 b, if_neg hbnot]
      simp only [hlb]
      rw [if_pos hqb]
    have hother : ∀ x, ¬ x = b →
        ((t.remove a).specified_id_to_refs.get q).count x = 0 := by
      intro x hx
      rw [hInv3.specCount q x, r3 x]
      by_cases hxs : x ∈ Inst.refsList sub
      · rw [if_pos hxs]
      · rw [if_neg hxs]
        cases hlx : alistLookup t.metadata_map x with
        | none => rfl
        | some mdx =>
          have hxa : ¬ x = a := fun hh => hxs (hh ▸ hamemsub)
          have hmemx := alistLookup_some_mem t.metadata_map x mdx hlx
          have := honly (x, mdx) hmemx hxa hx
          simp only at this
          simp [this]
    have hsingle : (t.remove a).specified_id_to_refs.get q = [b] :=
      eq_singleton_of_counts _ b hcb3 hother
    unfold RojoTree.get_specified_id
    rw [hsingle]

theorem c3_stable_id_lookup_witness :
    step2.2.get_specified_id "X" = none ∧
    (step2.2.remove 1).get_specified_id "X" = some 2 := by
  have h := c3_stable_id_lookup step2.2 1 2 "X" ⟨[], some "X"⟩
    ⟨[], some "X"⟩
    (Reachable.insert step1.2 0 snapA
      (Reachable.insert treeT 0 snapA (Reachable.base _) (by decide))
      (by decide))
    (by decide) rfl rfl rfl rfl (by decide)
  exact ⟨h.2.1, h.2.2 (by decide) (by decide)⟩

/-- C5: inserting a snapshot under a live parent and then immediately
removing the returned handle restores both the Path Index and the
Stable-Identifier Index to their pre-insert state, with no leaked
entries. -/
theorem c5_insert_then_remove_restores_indices (t : RojoTree) (parent : Nat)
    (s : InstanceSnapshot) (hR : Reachable t) (hp : parent ∈ t.liveRefs) :
    (∀ k, ((t.insert_instance parent s).2.remove
        (t.insert_instance parent s).1).path_to_ids.get k =
      t.path_to_ids.get k) ∧
    (∀ q, ((t.insert_instance parent s).2.remove
        (t.insert_instance parent s).1).specified_id_to_refs.get q =
      t.specified_id_to_refs.get q) := by
  have hInv := reachable_treeInv t hR
  obtain ⟨i1, i2, i3, i4, i5, i6, i7, i8⟩ := insert_instance_spec s t parent
    hInv.domNodup hInv.domBound hInv.metaBound hp hInv.mmwfPath hInv.mmwfSpec
  have hInv' := TreeInv_insert t parent s hInv hp
  have hbref : (buildInst t.inner.nextRef s).1.referent = t.inner.nextRef :=
    buildInst_referent _ s
  have hfreshref : (buildInst t.inner.nextRef s).1.referent ∉
      Inst.refsList t.inner.root := by
    rw [hbref]
    intro hc
    have := hInv.domBound _ hc
    omega
  have hfind : (t.insert_instance parent s).2.inner.root.find t.inner.nextRef
      = some (buildInst t.inner.nextRef s).1 := by
    rw [i3]
    have h := find_insertChild t.inner.root parent
      (buildInst t.inner.nextRef s).1 hp hfreshref
    rw [hbref] at h
    exact h
  obtain ⟨r1, r2, r3, r4, r5, r6, r7⟩ := remove_spec
    (t.insert_instance parent s).2 t.inner.nextRef
    (buildInst t.inner.nextRef s).1 hfind
    hInv'.domNodup hInv'.mmwfPath hInv'.mmwfSpec
  have hrefs : Inst.refsList (buildInst t.inner.nextRef s).1 =
      List.range' t.inner.nextRef (snapSize s) := by
    rw [refsList_build, snapPairs_keys]
  have hperm : List.Perm (bfsRefs [(buildInst t.inner.nextRef s).1])
      (Inst.refsList (buildInst t.inner.nextRef s).1) := by
    have h := bfsRefs_perm [(buildInst t.inner.nextRef s).1]
    simpa [refsListF] using h
  have hnd : (bfsRefs [(buildInst t.inner.nextRef s).1]).Nodup :=
    hperm.nodup_iff.mpr (by rw [hrefs]; exact List.nodup_range' _ _)
  have holdnone : ∀ x, x ∈ List.range' t.inner.nextRef (snapSize s) →
      alistLookup t.metadata_map x = none := by
    intro x hxr
    apply alistLookup_eq_none_of_not_key
    intro hk
    obtain ⟨e, he, hek⟩ := List.mem_map.mp hk
    have := hInv.metaBound e he
    rw [List.mem_range'] at hxr
    obtain ⟨i, _, hxi⟩ := hxr
    omega
  have hlookup' : ∀ x, x ∈ bfsRefs [(buildInst t.inner.nextRef s).1] →
      alistLookup (t.insert_instance parent s).2.metadata_map x =
        alistLookup (snapPairs t.inner.nextRef s).1 x := by
    intro x hx
    have hxr : x ∈ List.range' t.inner.nextRef (snapSize s) := by
      rw [← hrefs]
      exact hperm.subset hx
    rw [i4]
    exact alistLookup_append_right _ _ _ (holdnone x hxr)
  have hnotbfs : ∀ x, x ∉ bfsRefs [(buildInst t.inner.nextRef s).1] →
      alistLookup (snapPairs t.inner.nextRef s).1 x = none := by
    intro x hx
    apply alistLookup_eq_none_of_not_key
    rw [snapPairs_keys]
    intro hc
    exact hx (hperm.mem_iff.mpr (by rw [hrefs]; exact hc))
  constructor
  · intro k
    rw [i1, r4 k, i5 k]
    apply foldl_erase_append_perm
    · rw [List.perm_iff_count]
      intro x
      rw [count_removedPathIds _ k _ x hnd]
      rw [count_pathAdds k _ x (snapPairs_keys_nodup _ s)]
      by_cases hx : x ∈ bfsRefs [(buildInst t.inner.nextRef s).1]
      · rw [if_pos hx, hlookup' x hx]
      · rw [if_neg hx, hnotbfs x hx]
    · intro v hv hvl
      have hvk := mem_pathAdds k _ v hv
      have hvge := (snapPairs_keys_mem hvk).1
      have hpos : 0 < (t.path_to_ids.get k).count v :=
        List.count_pos_iff.mpr hvl
      rw [hInv.pathCount k v] at hpos
      cases hold : alistLookup t.metadata_map v with
      | none =>
        rw [hold] at hpos
        simp at hpos
      | some mdv =>
        have hk2 : v ∈ t.metadata_map.map Prod.fst := by
          rw [← alistLookup_isSome_iff, hold]
          rfl
        obtain ⟨e, he, hek⟩ := List.mem_map.mp hk2
        have := hInv.metaBound e he
        omega
  · intro q
    rw [i1, r5 q, i6 q]
    apply foldl_erase_append_perm
    · rw [List.perm_iff_count]
      intro x
      rw [count_removedSpecIds _ q _ x hnd]
      rw [count_specAdds q _ x (snapPairs_keys_nodup _ s)]
      by_cases hx : x ∈ bfsRefs [(buildInst t.inner.nextRef s).1]
      · rw [if_pos hx, hlookup' x hx]
      · rw [if_neg hx, hnotbfs x hx]
    · intro v hv hvl
      have hvk := mem_specAdds q _ v hv
      have hvge := (snapPairs_keys_mem hvk).1
      have hpos : 0 < (t.specified_id_to_refs.get q).count v :=
        List.count_pos_iff.mpr hvl
      rw [hInv.specCount q v] at hpos
      cases hold : alistLookup t.metadata_map v with
      | none =>
        rw [hold] at hpos
        simp at hpos
      | some mdv =>
        have hk2 : v ∈ t.metadata_map.map Prod.fst := by
          rw [← alistLookup_isSome_iff, hold]
          rfl
        obtain ⟨e, he, hek⟩ := List.mem_map.mp hk2
        have := hInv.metaBound e he
        omega

theorem c5_insert_then_remove_restores_indices_witness :
    ((treeT.insert_instance 0 snapB).2.remove
      (treeT.insert_instance 0 snapB).1).path_to_ids.get "p.lua" =
      treeT.path_to_ids.get "p.lua" ∧
    ((treeT.insert_instance 0 snapB).2.remove
      (treeT.insert_instance 0 snapB).1).specified_id_to_refs.get "X" =
      treeT.specified_id_to_refs.get "X" :=
  ⟨(c5_insert_then_remove_restores_indices treeT 0 snapB (Reachable.base _)
      (by decide)).1 "p.lua",
   (c5_insert_then_remove_restores_indices treeT 0 snapB (Reachable.base _)
      (by decide)).2 "X"⟩

theorem mem_ids_at_path_of_metadata (t : RojoTree) (x : Nat) (p : String)
    (md : InstanceMetadata) (hInv : TreeInv t)
    (hl : alistLookup t.metadata_map x = some md)
    (hp : p ∈ md.relevant_paths) : x ∈ t.get_ids_at_path p := by
  show x ∈ t.path_to_ids.get p
  rw [← List.count_pos_iff, hInv.pathCount p x]
  simp only [hl]
  exact List.count_pos_iff.mpr hp

theorem mem_ids_at_path_after_remove (t : RojoTree) (a b : Nat) (p : String)
    (mdb : InstanceMetadata) (hInv : TreeInv t) (ha : a ∈ t.liveRefs)
    (hroot : ¬ a = t.get_root_id) (hbl : b ∈ (t.remove a).liveRefs)
    (hlb : alistLookup t.metadata_map b = some mdb)
    (hp : p ∈ mdb.relevant_paths) : b ∈ (t.remove a).get_ids_at_path p := by
  obtain ⟨sub, hf⟩ := find_some_of_mem t.inner.root a ha
  obtain ⟨r1, r2, r3, r4, r5, r6, r7⟩ := remove_spec t a sub hf
    hInv.domNodup hInv.mmwfPath hInv.mmwfSpec
  have hiff := refs_destroy_iff t.inner.root a sub hInv.domNodup hroot hf
  have hbmem : b ∈ Inst.refsList ((t.remove a).inner.root) := hbl
  rw [r2] at hbmem
  have hbnot : b ∉ Inst.refsList sub := ((hiff b).mp hbmem).2
  have hlb3 : alistLookup (t.remove a).metadata_map b = some mdb := by
    rw [r3 b, if_neg hbnot]
    exact hlb
  exact mem_ids_at_path_of_metadata _ b p mdb
    (TreeInv_remove t a hInv ha hroot) hlb3 hp

/-- C6: after inserting two subtrees (the second into the tree produced by
the first insertion) whose root snapshots both declare the relevant path
`p`, `get_ids_at_path p` contains both returned handles; after removing the
first handle (a non-root handle whose removal leaves the second one live),
the second handle is still listed under `p`. -/
theorem c6_shared_path_aliasing (t : RojoTree) (q1 q2 : Nat)
    (s1 s2 : InstanceSnapshot) (p : String) (hR : Reachable t)
    (hq1 : q1 ∈ t.liveRefs)
    (hq2 : q2 ∈ (t.insert_instance q1 s1).2.liveRefs)
    (hs1 : p ∈ s1.metadata.relevant_paths)
    (hs2 : p ∈ s2.metadata.relevant_paths) :
    (t.insert_instance q1 s1).1 ∈
      ((t.insert_instance q1 s1).2.insert_instance q2 s2).2.get_ids_at_path
        p ∧
    ((t.insert_instance q1 s1).2.insert_instance q2 s2).1 ∈
      ((t.insert_instance q1 s1).2.insert_instance q2 s2).2.get_ids_at_path
        p ∧
    (¬ (t.insert_instance q1 s1).1 =
        ((t.insert_instance q1 s1).2.insert_instance q2 s2).2.get_root_id →
      ((t.insert_instance q1 s1).2.insert_instance q2 s2).1 ∈
        (((t.insert_instance q1 s1).2.insert_instance q2 s2).2.remove
          (t.insert_instance q1 s1).1).liveRefs →
      ((t.insert_instance q1 s1).2.insert_instance q2 s2).1 ∈
        (((t.insert_instance q1 s1).2.insert_instance q2 s2).2.remove
          (t.insert_instance q1 s1).1).get_ids_at_path p) := by
  have hInv := reachable_treeInv t hR
  obtain ⟨i1, i2, i3, i4, i5, i6, i7, i8⟩ := insert_instance_spec s1 t q1
    hInv.domNodup hInv.domBound hInv.metaBound hq1 hInv.mmwfPath hInv.mmwfSpec
  have hInv1 := TreeInv_insert t q1 s1 hInv hq1
  obtain ⟨j1, j2, j3, j4, j5, j6, j7, j8⟩ := insert_instance_spec s2
    (t.insert_instance q1 s1).2 q2 hInv1.domNodup hInv1.domBound
    hInv1.metaBound hq2 hInv1.mmwfPath hInv1.mmwfSpec
  have hInv2 := TreeInv_insert (t.insert_instance q1 s1).2 q2 s2 hInv1 hq2
  have hl1 : alistLookup (t.insert_instance q1 s1).2.metadata_map
      (t.insert_instance q1 s1).1 = some s1.metadata := by
    rw [i1, i4]
    rw [alistLookup_append_right _ _ _ (by
      apply alistLookup_eq_none_of_not_key
      intro hk
      obtain ⟨e, he, hek⟩ := List.mem_map.mp hk
      have := hInv.metaBound e he
      omega)]
    exact alistLookup_snapPairs_self _ s1
  have hl1' : alistLookup
      ((t.insert_instance q1 s1).2.insert_instance q2 s2).2.metadata_map
      (t.insert_instance q1 s1).1 = some s1.metadata := by
    rw [j4]
    exact alistLookup_append_left _ _ _ _ hl1
  have hl2' : alistLookup
      ((t.insert_instance q1 s1).2.insert_instance q2 s2).2.metadata_map
      ((t.insert_instance q1 s1).2.insert_instance q2 s2).1 =
      some s2.metadata := by
    rw [j1, j4]
    rw [alistLookup_append_right _ _ _ (by
      apply alistLookup_eq_none_of_not_key
      intro hk
      obtain ⟨e, he, hek⟩ := List.mem_map.mp hk
      have := hInv1.metaBound e he
      omega)]
    exact alistLookup_snapPairs_self _ s2
  have hmem1 : (t.insert_instance q1 s1).1 ∈
      ((t.insert_instance q1 s1).2.insert_instance q2 s2).2.liveRefs := by
    apply (hInv2.metaDom _).mp
    rw [hl1']
    rfl
  refine ⟨?_, ?_, ?_⟩
  · exact mem_ids_at_path_of_metadata _ _ p s1.metadata hInv2 hl1' hs1
  · exact mem_ids_at_path_of_metadata _ _ p s2.metadata hInv2 hl2' hs2
  · intro hroot hsurv
    exact mem_ids_at_path_after_remove _ _ _ p s2.metadata hInv2 hmem1
      hroot hsurv hl2' hs2

theorem c6_shared_path_aliasing_witness :
    (treeT.insert_instance 0 snapB).1 ∈
      ((treeT.insert_instance 0 snapB).2.insert_instance 0
        snapB).2.get_ids_at_path "p.lua" ∧
    ((treeT.insert_instance 0 snapB).2.insert_instance 0 snapB).1 ∈
      ((treeT.insert_instance 0 snapB).2.insert_instance 0
        snapB).2.get_ids_at_path "p.lua" ∧
    ((treeT.insert_instance 0 snapB).2.insert_instance 0 snapB).1 ∈
      (((treeT.insert_instance 0 snapB).2.insert_instance 0 snapB).2.remove
        (treeT.insert_instance 0 snapB).1).get_ids_at_path "p.lua" := by
  have h := c6_shared_path_aliasing treeT 0 0 snapB snapB "p.lua"
    (Reachable.base _) (by decide) (by decide) (by decide) (by decide)
  exact ⟨h.1, h.2.1, h.2.2 (by decide) (by decide)⟩

theorem propsLookup_eq_none_iff (ps : Props) (k : String) :
    propsLookup ps k = none ↔ k ∉ ps.map Prod.fst := by
  induction ps with
  | nil => simp [propsLookup]
  | cons kv rest ih =>
    rw [propsLookup_cons]
    by_cases h : kv.1 = k
    · rw [if_pos h]
      simp [h]
    · rw [if_neg h]
      rw [ih]
      simp only [List.map_cons, List.mem_cons, not_or]
      constructor
      · intro hh
        exact ⟨fun hk => h hk.symm, hh⟩
      · intro hh
        exact hh.2

/-- C8: a snapshot inserted through `insert_instance` creates a node whose
property bag is the snapshot's properties layered over the pivot shim's
output; when the class is in the fixed allowlist `shimClasses` and the
snapshot does not declare `NeedsPivotMigration`, the bag contains that key
with value `Bool false`; when the snapshot declares it explicitly its value
is kept; for classes outside the allowlist the lookup of that key is
exactly the snapshot's own. -/
theorem c8_pivot_migration_shim (t : RojoTree) (parent : Nat) (c nm : String)
    (pr : Props) (md : InstanceMetadata) (cs : List InstanceSnapshot)
    (hR : Reachable t) (hp : parent ∈ t.liveRefs)
    (hnd : (pr.map Prod.fst).Nodup) :
    ((t.insert_instance parent (.mk c nm pr md cs)).2.inner.root.find
        (t.insert_instance parent (.mk c nm pr md cs)).1).map
      Inst.properties =
      some (propsInsertAll (propsInsertAll [] (legacyPivotShim c pr)) pr) ∧
    (shimClasses.contains c = true →
      propsContainsKey pr "NeedsPivotMigration" = false →
      propsLookup (propsInsertAll (propsInsertAll []
          (legacyPivotShim c pr)) pr) "NeedsPivotMigration" =
        some (Variant.bool false)) ∧
    (∀ v, propsLookup pr "NeedsPivotMigration" = some v →
      propsLookup (propsInsertAll (propsInsertAll []
          (legacyPivotShim c pr)) pr) "NeedsPivotMigration" = some v) ∧
    (shimClasses.contains c = false →
      propsLookup (propsInsertAll (propsInsertAll []
          (legacyPivotShim c pr)) pr) "NeedsPivotMigration" =
        propsLookup pr "NeedsPivotMigration") := by
  have hInv := reachable_treeInv t hR
  obtain ⟨i1, i2, i3, i4, i5, i6, i7, i8⟩ := insert_instance_spec
    (.mk c nm pr md cs) t parent
    hInv.domNodup hInv.domBound hInv.metaBound hp hInv.mmwfPath hInv.mmwfSpec
  refine ⟨?_, ?_, ?_, ?_⟩
  · have hbref : (buildInst t.inner.nextRef (.mk c nm pr md cs)).1.referent =
        t.inner.nextRef := buildInst_referent _ _
    have hfreshref :
        (buildInst t.inner.nextRef (.mk c nm pr md cs)).1.referent ∉
          Inst.refsList t.inner.root := by
      rw [hbref]
      intro hc2
      have := hInv.domBound _ hc2
      omega
    have hfind := find_insertChild t.inner.root parent
      (buildInst t.inner.nextRef (.mk c nm pr md cs)).1 hp hfreshref
    rw [hbref] at hfind
    rw [i1, i3, hfind]
    show some (Inst.properties
      (buildInst t.inner.nextRef (.mk c nm pr md cs)).1) = _
    rw [buildInst_properties]
  · intro hc hck
    have hshim : legacyPivotShim c pr =
        [("NeedsPivotMigration", Variant.bool false)] := by
      unfold legacyPivotShim
      rw [hc, hck]
      rfl
    rw [hshim]
    have hnk : "NeedsPivotMigration" ∉ pr.map Prod.fst :=
      (propsContainsKey_false_iff pr _).mp hck
    rw [propsLookup_propsInsertAll_of_not_key pr _ _ hnk]
    rfl
  · intro v hv
    exact propsLookup_propsInsertAll_of_lookup pr _ _ v hnd hv
  · intro hc
    have hshim : legacyPivotShim c pr = [] := by
      unfold legacyPivotShim
      rw [hc]
      rfl
    rw [hshim]
    cases hx : propsLookup pr "NeedsPivotMigration" with
    | some v =>
      exact propsLookup_propsInsertAll_of_lookup pr _ _ v hnd hx
    | none =>
      have hnk : "NeedsPivotMigration" ∉ pr.map Prod.fst :=
        (propsLookup_eq_none_iff pr _).mp hx
      rw [propsLookup_propsInsertAll_of_not_key pr _ _ hnk]
      rfl

theorem c8_pivot_migration_shim_witness :
    propsLookup (propsInsertAll (propsInsertAll []
        (legacyPivotShim "Model" [])) []) "NeedsPivotMigration" =
      some (Variant.bool false) :=
  (c8_pivot_migration_shim treeT 0 "Model" "m" [] ⟨[], none⟩ []
    (Reachable.base _) (by decide) (by decide)).2.1 rfl rfl
